import Mathlib

/-!
Verification development for the Library Digitalization System's hash-table
core (`hash_table.py`, `dynamic_hashtable.py`, `prime_generator.py`).

The Python source is shallowly embedded as executable Lean definitions:

* Python integers are `Int`; `a % b` is Python's flooring remainder, i.e.
  `Int.fmod` (for a positive divisor it agrees with the Euclidean `Int.emod`).
  Python raises `ZeroDivisionError` on `% 0`; every operation that can reach
  a zero divisor in the source is therefore `Option`-valued here, with `none`
  standing for a raised exception.
* A table stores either bare string keys (`HashSet`) or key/value pairs
  (`HashMap`).  The source is dynamically typed and branches on
  `isinstance(x, tuple)` and on Python truthiness (`if self.find(key):`,
  `while self.table[idx]:`); we capture both variants with one entry
  parameter `α` and an `EntryKind` record supplying the key projection and
  the two truthiness tests the source applies to entries.
* Unbounded `while` loops probe at most `table_size` slots before the
  source's own cycle check fires, so they are embedded with explicit fuel
  `table_size`; a dedicated claim (C9) proves that this fuel is never
  exhausted and that any larger fuel computes the same answer.
* Table sizes are kept as `Nat`: every size the program uses comes from the
  constructor parameters or the prime-size supplier, which the spec
  constrains to (positive) primes.
-/

/-- Python's `a % b` on integers: the flooring remainder `Int.fmod`.
For `b > 0` it agrees with the Euclidean remainder `Int.emod`.
Python raises on `b = 0`; callers that can pass `b = 0` guard for it. -/
def pymod (a b : Int) : Int := Int.fmod a b

theorem pymod_eq_emod (a b : Int) (hb : 0 ≤ b) : pymod a b = a % b :=
  Int.fmod_eq_emod a hb

theorem pymod_nonneg (a b : Int) (hb : 0 < b) : 0 ≤ pymod a b := by
  rw [pymod_eq_emod a b (le_of_lt hb)]
  exact Int.emod_nonneg a (ne_of_gt hb)

theorem pymod_lt (a b : Int) (hb : 0 < b) : pymod a b < b := by
  rw [pymod_eq_emod a b (le_of_lt hb)]
  exact Int.emod_lt_of_pos a hb

/-- Character encoding used by `get_slot` and the secondary hash in
`hash_table.py`: `value = ord(char) - ord('a')` when `char.islower()`,
otherwise `value = ord(char) - ord('A') + 26`.  (Python's `islower` agrees
with `Char.isLower` on the ASCII keys the spec admits.) -/
def charValue (c : Char) : Int :=
  if c.isLower then (c.toNat : Int) - 97 else (c.toNat : Int) - 65 + 26

/-- ASCII letter test, the key precondition stated by the spec. -/
def isAsciiLetter (c : Char) : Bool :=
  (('a' ≤ c) && (c ≤ 'z')) || (('A' ≤ c) && (c ≤ 'Z'))

/-- Collision resolution strategies of `HashTable.__init__`. -/
inductive Strategy where
  | Chain
  | Linear
  | Double
deriving DecidableEq, Repr

/-- Slot storage: `[[] for it in range(size)]` for chaining,
`[None] * size` for the probing strategies. -/
inductive Slots (α : Type) where
  | chainS (rows : List (List α))
  | probedS (cells : List (Option α))
deriving DecidableEq, Repr

/-- How the source's dynamically-typed code treats an entry `x`:
`keyOf` is `x[0] if isinstance(x, tuple) else x`; `slotTruthy` is Python's
`bool(x)` as used by `while self.table[idx]:`; `resTruthy` is the truthiness
of what `find` returns on a match (`x[1] if isinstance(x, tuple) else True`),
as used by `if self.find(key):`. -/
structure EntryKind (α : Type) where
  keyOf : α → String
  slotTruthy : α → Bool
  resTruthy : α → Bool

/-- Entries of a `HashSet` table: bare string keys.  A stored string is
slot-truthy iff non-empty; a `find` hit returns Python `True`. -/
def setEntry : EntryKind String where
  keyOf := fun k => k
  slotTruthy := fun k => !(k == "")
  resTruthy := fun _ => true

/-- Entries of a `HashMap` table over value type `V`: key/value pairs.
A stored tuple is always slot-truthy; a `find` hit returns the value, whose
Python truthiness is the parameter `tv`. -/
def mapEntry (V : Type) (tv : V → Bool) : EntryKind (String × V) where
  keyOf := fun e => e.1
  slotTruthy := fun _ => true
  resTruthy := fun e => tv e.2

/-- The table object of `hash_table.py`.  `params` models the Python
attribute `self.params`, which no constructor in the repository ever
assigns (hence `none` everywhere); `DynamicHashMap.rehash` reads it. -/
structure HashTable (α : Type) where
  collision_type : Strategy
  z : Int
  z2 : Int
  c2 : Int
  table_size : Nat
  table : Slots α
  total_elements : Nat
  params : Option (List Int)
deriving DecidableEq, Repr

/-- Constructor `HashTable.__init__(collision_type, params)`.  The Double
strategy reads `params[0..3]`, the others `params[0..1]`; a too-short
parameter tuple raises `IndexError`, modelled as `none`.  For Chain/Linear
the attributes `z2`/`c2` are never assigned in the source and never read;
they are fixed to `0` here.  Sizes are taken with `Int.toNat` (all sizes the
program supplies are positive). -/
def HashTable.init (α : Type) (ct : Strategy) (ps : List Int) :
    Option (HashTable α) :=
  match ct, ps with
  | .Double, z :: z2 :: c2 :: size :: _ =>
      some { collision_type := .Double, z := z, z2 := z2, c2 := c2,
             table_size := size.toNat,
             table := .probedS (List.replicate size.toNat none),
             total_elements := 0, params := none }
  | .Double, _ => none
  | .Chain, z :: size :: _ =>
      some { collision_type := .Chain, z := z, z2 := 0, c2 := 0,
             table_size := size.toNat,
             table := .chainS (List.replicate size.toNat []),
             total_elements := 0, params := none }
  | .Chain, _ => none
  | .Linear, z :: size :: _ =>
      some { collision_type := .Linear, z := z, z2 := 0, c2 := 0,
             table_size := size.toNat,
             table := .probedS (List.replicate size.toNat none),
             total_elements := 0, params := none }
  | .Linear, _ => none

/-- Primary hash `HashTable.get_slot`: iterate the key's characters from the
last index down to `0`, updating `poly = (poly * z + value) % size`, and
return `poly % size`. -/
def HashTable.get_slot {α : Type} (t : HashTable α) (key : String) : Nat :=
  (pymod
    (key.data.reverse.foldl
      (fun poly c => pymod (poly * t.z + charValue c) (t.table_size : Int)) 0)
    (t.table_size : Int)).toNat

/-- Secondary-hash accumulator computed identically inside both
`HashTable.insert` and `HashTable.find` for the Double strategy:
`step = step * z2 + value` over the characters from last to first, with no
modulus reduction. -/
def stepAcc (z2 : Int) (key : String) : Int :=
  key.data.reverse.foldl (fun s c => s * z2 + charValue c) 0

/-- Secondary step `step = c2 - (step % c2)` as computed by both
`HashTable.insert` and `HashTable.find`; `c2 = 0` raises
`ZeroDivisionError` in Python, modelled as `none`. -/
def HashTable.secondaryStep? {α : Type} (t : HashTable α) (key : String) :
    Option Int :=
  if t.c2 = 0 then none else some (t.c2 - pymod (stepAcc t.z2 key) t.c2)

/-- Probe advance `idx = (idx + step) % self.table_size` (Linear uses
`step = 1`). -/
def nextIdx (idx : Nat) (stp : Int) (size : Nat) : Nat :=
  (pymod ((idx : Int) + stp) (size : Int)).toNat

theorem nextIdx_lt (idx : Nat) (stp : Int) (size : Nat) (h : 1 ≤ size) :
    nextIdx idx stp size < size := by
  have hpos : (0 : Int) < (size : Int) := by exact_mod_cast h
  have h1 := pymod_nonneg ((idx : Int) + stp) (size : Int) hpos
  have h2 := pymod_lt ((idx : Int) + stp) (size : Int) hpos
  unfold nextIdx
  omega

/-- Character encoding in the spec's words: lowercase letters map to
`0..25`, uppercase letters to `26..51`. -/
def specCharValue (c : Char) : Int :=
  if ('a' ≤ c) && (c ≤ 'z') then (c.toNat : Int) - ('a'.toNat : Int)
  else 26 + ((c.toNat : Int) - ('A'.toNat : Int))

/-- Primary hash in the spec's words: iterate the key's characters from
last to first with accumulator update `poly = (poly * z + value) mod size`,
and reduce the final accumulator once more `mod size`. -/
def specSlot (z : Int) (size : Nat) (key : String) : Nat :=
  (pymod
    (key.data.foldr
      (fun c poly => pymod (poly * z + specCharValue c) (size : Int)) 0)
    (size : Int)).toNat

/-- Secondary accumulator in the spec's words: right-to-left accumulation
with multiplier `z2` and no modulus reduction during accumulation. -/
def specStepAcc (z2 : Int) (key : String) : Int :=
  key.data.foldr (fun c s => s * z2 + specCharValue c) 0

theorem charValue_eq_specCharValue (c : Char) :
    charValue c = specCharValue c := by
  have ha : ('a'.toNat : Int) = 97 := rfl
  have hA : ('A'.toNat : Int) = 65 := rfl
  have hb : (('a' ≤ c) && (c ≤ 'z')) = c.isLower := rfl
  unfold charValue specCharValue
  rw [hb, ha, hA]
  by_cases h : c.isLower
  · simp [h]
  · simp [h]
    ring

theorem specCharValue_lower_range (c : Char)
    (h : (('a' ≤ c) && (c ≤ 'z')) = true) :
    0 ≤ specCharValue c ∧ specCharValue c ≤ 25 := by
  have h97 : 97 ≤ c.toNat := by
    have := (Bool.and_eq_true _ _).mp h |>.1
    simpa [Char.le_def, Char.toNat] using this
  have h122 : c.toNat ≤ 122 := by
    have := (Bool.and_eq_true _ _).mp h |>.2
    simpa [Char.le_def, Char.toNat] using this
  unfold specCharValue
  rw [if_pos h]
  have ha : ('a'.toNat : Int) = 97 := rfl
  rw [ha]
  omega

theorem specCharValue_upper_range (c : Char)
    (hl : (('a' ≤ c) && (c ≤ 'z')) = false)
    (h : (('A' ≤ c) && (c ≤ 'Z')) = true) :
    26 ≤ specCharValue c ∧ specCharValue c ≤ 51 := by
  have h65 : 65 ≤ c.toNat := by
    have := (Bool.and_eq_true _ _).mp h |>.1
    simpa [Char.le_def, Char.toNat] using this
  have h90 : c.toNat ≤ 90 := by
    have := (Bool.and_eq_true _ _).mp h |>.2
    simpa [Char.le_def, Char.toNat] using this
  unfold specCharValue
  rw [if_neg (by simp [hl])]
  have hA : ('A'.toNat : Int) = 65 := rfl
  rw [hA]
  omega

/-- Claim C6: for every table and every key of ASCII letters, the primary
hash slot `get_slot` equals the spec's description: iterate the key's
characters from last to first with accumulator update
`poly = (poly * z + value) mod size`, where the character value maps
lowercase letters to `0..25` and uppercase letters to `26..51`, reducing
the final accumulator again `mod size`. -/
theorem get_slot_eq_specSlot {α : Type} (t : HashTable α) (key : String)
    (h : key.data.all isAsciiLetter = true) :
    t.get_slot key = specSlot t.z t.table_size key ∧
    ∀ c ∈ key.data,
      ((('a' ≤ c) && (c ≤ 'z')) = true →
        0 ≤ specCharValue c ∧ specCharValue c ≤ 25) ∧
      ((('a' ≤ c) && (c ≤ 'z')) = false → (('A' ≤ c) && (c ≤ 'Z')) = true →
        26 ≤ specCharValue c ∧ specCharValue c ≤ 51) := by
  constructor
  · unfold HashTable.get_slot specSlot
    simp only [List.foldl_reverse, charValue_eq_specCharValue]
  · intro c _
    exact ⟨specCharValue_lower_range c, specCharValue_upper_range c⟩

/-- Witness for C6 at a concrete input. -/
theorem get_slot_eq_specSlot_witness :
    ("cat".data.all isAsciiLetter = true) ∧
    ({ collision_type := .Chain, z := 31, z2 := 0, c2 := 0, table_size := 29,
       table := .chainS (List.replicate 29 []), total_elements := 0,
       params := none : HashTable String }.get_slot "cat"
      = specSlot 31 29 "cat") :=
  ⟨by decide,
   (get_slot_eq_specSlot _ "cat" (by decide)).1⟩

/-- Claim C7: for every Double table with `c2 ≥ 1` and every key of ASCII
letters, the secondary step shared by `insert` and `find` equals
`c2 - (A mod c2)` where `A` is the spec's right-to-left accumulation with
multiplier `z2` and no modulus reduction, and this step lies in `[1, c2]`. -/
theorem secondaryStep_spec {α : Type} (t : HashTable α) (key : String)
    (hc2 : 1 ≤ t.c2) (h : key.data.all isAsciiLetter = true) :
    t.secondaryStep? key = some (t.c2 - pymod (specStepAcc t.z2 key) t.c2) ∧
    ∀ s, t.secondaryStep? key = some s → 1 ≤ s ∧ s ≤ t.c2 := by
  have hc2ne : ¬ t.c2 = 0 := by omega
  have hacc : stepAcc t.z2 key = specStepAcc t.z2 key := by
    unfold stepAcc specStepAcc
    simp only [List.foldl_reverse, charValue_eq_specCharValue]
  constructor
  · unfold HashTable.secondaryStep?
    rw [if_neg hc2ne, hacc]
  · intro s hs
    unfold HashTable.secondaryStep? at hs
    rw [if_neg hc2ne] at hs
    have hpos : (0 : Int) < t.c2 := by omega
    have h1 := pymod_nonneg (stepAcc t.z2 key) t.c2 hpos
    have h2 := pymod_lt (stepAcc t.z2 key) t.c2 hpos
    have : s = t.c2 - pymod (stepAcc t.z2 key) t.c2 := by
      exact (Option.some_inj.mp hs).symm
    omega

/-- Witness for C7 at a concrete input. -/
theorem secondaryStep_spec_witness :
    ((1 : Int) ≤ 17 ∧ "key".data.all isAsciiLetter = true) ∧
    ({ collision_type := .Double, z := 31, z2 := 37, c2 := 17,
       table_size := 29, table := .probedS (List.replicate 29 none),
       total_elements := 0, params := none
       : HashTable String }.secondaryStep? "key"
        = some (17 - pymod (specStepAcc 37 "key") 17)) :=
  ⟨⟨by decide, by decide⟩,
   (secondaryStep_spec _ "key" (by decide) (by decide)).1⟩

/-- Index bounds shared by the whole development: `get_slot` lands in
`[0, size)` for any key, and the probe advance stays in `[0, size)`. -/
theorem probe_index_bounds :
    (∀ (α : Type) (t : HashTable α) (key : String),
        1 ≤ t.table_size → t.get_slot key < t.table_size) ∧
    (∀ (idx : Nat) (stp : Int) (size : Nat),
        1 ≤ size → nextIdx idx stp size < size) := by
  constructor
  · intro α t key h
    have hpos : (0 : Int) < (t.table_size : Int) := by exact_mod_cast h
    have h1 := pymod_nonneg
      (key.data.reverse.foldl
        (fun poly c => pymod (poly * t.z + charValue c) (t.table_size : Int)) 0)
      (t.table_size : Int) hpos
    have h2 := pymod_lt
      (key.data.reverse.foldl
        (fun poly c => pymod (poly * t.z + charValue c) (t.table_size : Int)) 0)
      (t.table_size : Int) hpos
    unfold HashTable.get_slot
    omega
  · exact fun idx stp size h => nextIdx_lt idx stp size h

/-- Claim C10: for every table with `size ≥ 1` and every key string over
arbitrary characters, `get_slot` returns an index in `[0, size)`, and the
probe advance used by `insert` and `find` keeps indices in `[0, size)`;
hence every slot access of `insert`/`find` is within bounds. -/
theorem get_slot_lt :
    (∀ (α : Type) (t : HashTable α) (key : String),
        1 ≤ t.table_size → t.get_slot key < t.table_size) ∧
    (∀ (idx : Nat) (stp : Int) (size : Nat),
        1 ≤ size → nextIdx idx stp size < size) :=
  probe_index_bounds

/-- Witness for C10 at a concrete input. -/
theorem get_slot_lt_witness :
    (1 ≤ 29 ∧
      ({ collision_type := .Chain, z := 31, z2 := 0, c2 := 0, table_size := 29,
         table := .chainS (List.replicate 29 []), total_elements := 0,
         params := none : HashTable String }.get_slot "a b?!" < 29)) ∧
    (1 ≤ 29 ∧ nextIdx 7 13 29 < 29) :=
  ⟨⟨by omega, get_slot_lt.1 String _ "a b?!" (by decide)⟩,
   ⟨by omega, get_slot_lt.2 7 13 29 (by decide)⟩⟩

/-- Result of `HashTable.find`.  A hit returns the matching stored entry
(the source returns `item[1]` for a tuple and `True` for a bare key; both
are recoverable from the entry).  A miss returns the absence sentinel
(`None` for a `HashMap`, `False` for a `HashSet`), and `err` models a
raised exception (`ZeroDivisionError` for `c2 = 0` or `table_size = 0`). -/
inductive FindRes (α : Type) where
  | found (e : α)
  | missing
  | err
deriving DecidableEq, Repr

/-- Python truthiness of `find`'s return value, as consumed by
`if self.find(key):` in `insert`.  A hit is as truthy as the returned
payload; both absence sentinels (`None`, `False`) are falsy. -/
def FindRes.truthy {α : Type} (K : EntryKind α) : FindRes α → Bool
  | .found e => K.resTruthy e
  | .missing => false
  | .err => false

/-- The probing loop of `HashTable.find` for Linear (`stp = 1`) and Double
strategies: `while self.table[idx]:` scan with advance
`idx = (idx + step) % size` and exit `if orig_idx == idx`.  The source's
loop is unbounded; the embedding runs it on explicit fuel, and the
development proves fuel `size` always suffices (claim C9). -/
def probeFindLoop {α : Type} (K : EntryKind α) (cells : List (Option α))
    (size : Nat) (key : String) (stp : Int) (orig : Nat) :
    Nat → Nat → FindRes α
  | 0, _ => .err
  | fuel + 1, idx =>
    match cells.getD idx none with
    | none => .missing
    | some e =>
      if K.slotTruthy e = false then .missing
      else if K.keyOf e = key then .found e
      else
        let idx' := nextIdx idx stp size
        if idx' = orig then .missing
        else probeFindLoop K cells size key stp orig fuel idx'

/-- Search `HashTable.find`.  `table_size = 0` makes `get_slot` raise
`ZeroDivisionError` in the source, hence the leading guard.  The final
catch-all covers a strategy/slot-shape mismatch that no reachable table
exhibits. -/
def HashTable.find {α : Type} (K : EntryKind α) (t : HashTable α)
    (key : String) : FindRes α :=
  if t.table_size = 0 then .err
  else
    let idx := t.get_slot key
    match t.collision_type, t.table with
    | .Chain, .chainS rows =>
        match (rows.getD idx []).find? (fun e => K.keyOf e == key) with
        | some e => .found e
        | none => .missing
    | .Linear, .probedS cells =>
        probeFindLoop K cells t.table_size key 1 idx t.table_size idx
    | .Double, .probedS cells =>
        match t.secondaryStep? key with
        | none => .err
        | some stp => probeFindLoop K cells t.table_size key stp idx t.table_size idx
    | _, _ => .err

/-- Outcome of the probing loop inside `HashTable.insert`: an empty slot,
a full cycle back to the start (silent no-op), or fuel exhaustion (proved
unreachable at fuel `size`, claim C9). -/
inductive InsProbe where
  | free (j : Nat)
  | full
  | fuelOut
deriving DecidableEq, Repr

/-- The probing loop of `HashTable.insert`:
`while self.table[idx] is not None:` with advance
`idx = (idx + step) % size` and `if idx == orig_idx: return`.  Unlike the
`find` loop this one tests `is not None`, not truthiness. -/
def probeInsLoop {α : Type} (cells : List (Option α)) (size : Nat)
    (stp : Int) (orig : Nat) : Nat → Nat → InsProbe
  | 0, _ => .fuelOut
  | fuel + 1, idx =>
    match cells.getD idx none with
    | none => .free idx
    | some _ =>
      let idx' := nextIdx idx stp size
      if idx' = orig then .full
      else probeInsLoop cells size stp orig fuel idx'

/-- Slot placement performed by `HashTable.insert` once its duplicate
check has passed: compute `idx = get_slot(key)` and place the entry per
strategy, incrementing `total_elements`; the Double branch first computes
the secondary step (raising, i.e. `none`, when `c2 = 0`).  `full` cycles
return the table unchanged; `none` models a raised exception. -/
def HashTable.insertRaw {α : Type} (K : EntryKind α) (t : HashTable α)
    (x : α) : Option (HashTable α) :=
  match t.collision_type, t.table with
  | .Chain, .chainS rows =>
      some { t with
             table := .chainS (rows.set (t.get_slot (K.keyOf x))
               (rows.getD (t.get_slot (K.keyOf x)) [] ++ [x]))
             total_elements := t.total_elements + 1 }
  | .Linear, .probedS cells =>
      match probeInsLoop cells t.table_size 1 (t.get_slot (K.keyOf x))
          t.table_size (t.get_slot (K.keyOf x)) with
      | .fuelOut => none
      | .full => some t
      | .free j =>
          some { t with
                 table := .probedS (cells.set j (some x))
                 total_elements := t.total_elements + 1 }
  | .Double, .probedS cells =>
      match t.secondaryStep? (K.keyOf x) with
      | none => none
      | some stp =>
        match probeInsLoop cells t.table_size stp (t.get_slot (K.keyOf x))
            t.table_size (t.get_slot (K.keyOf x)) with
        | .fuelOut => none
        | .full => some t
        | .free j =>
            some { t with
                   table := .probedS (cells.set j (some x))
                   total_elements := t.total_elements + 1 }
  | _, _ => none

/-- Insertion `HashTable.insert`: extract the key
(`x[0] if isinstance(x, tuple) else x`), skip when `self.find(key)` is
truthy, otherwise place the entry (`HashTable.insertRaw`).  `none` models
a raised exception. -/
def HashTable.insert {α : Type} (K : EntryKind α) (t : HashTable α)
    (x : α) : Option (HashTable α) :=
  match t.find K (K.keyOf x) with
  | .err => none
  | fr =>
    if fr.truthy K then some t
    else t.insertRaw K x

/-- Load factor `HashTable.get_load`: `total_elements / table_size`,
modelled as an exact rational (the spec's claims are about the ratio;
IEEE rounding is out of scope).  Python raises on `table_size = 0`; the
only caller in the repository that can reach that case is the dynamic
layer, which guards for it explicitly. -/
def HashTable.get_load {α : Type} (t : HashTable α) : ℚ :=
  (t.total_elements : ℚ) / (t.table_size : ℚ)

/-- All stored entries in the drain order used by `rehash`: row by row for
chaining, array order skipping vacant cells for probing. -/
def HashTable.toList {α : Type} (t : HashTable α) : List α :=
  match t.table with
  | .chainS rows => rows.flatten
  | .probedS cells => cells.filterMap id

/-- Sequential reinsertion (`for item in ...: self.insert(item)`); an
exception in any step propagates. -/
def insertAll {α : Type} (K : EntryKind α) :
    List α → HashTable α → Option (HashTable α)
  | [], t => some t
  | x :: xs, t =>
    match t.insert K x with
    | none => none
    | some t' => insertAll K xs t'

/-- Resize `HashTable.rehash` of the static table: keep strategy and hash
parameters, reset the slots at `new_size` (the value `get_next_size()`
returned), zero the counter, and reinsert every drained entry through
`insert`. -/
def HashTable.rehash {α : Type} (K : EntryKind α) (t : HashTable α)
    (new_size : Nat) : Option (HashTable α) :=
  let old := t.toList
  let t0 : HashTable α :=
    { t with
      table_size := new_size
      total_elements := 0
      table := match t.collision_type with
        | .Chain => .chainS (List.replicate new_size [])
        | _ => .probedS (List.replicate new_size none) }
  insertAll K old t0

/-- Structural well-formedness every table reachable from the constructors
maintains: a positive size (sizes come from the construction parameters or
the prime supplier, which the spec constrains to primes), a slots array of
length `table_size` whose shape matches the strategy, and a counter equal
to the number of stored entries. -/
def HashTable.wf {α : Type} (t : HashTable α) : Bool :=
  decide (1 ≤ t.table_size) &&
  match t.collision_type, t.table with
  | .Chain, .chainS rows =>
      (rows.length == t.table_size) && (t.total_elements == rows.flatten.length)
  | .Linear, .probedS cells =>
      (cells.length == t.table_size) &&
        (t.total_elements == (cells.filterMap id).length)
  | .Double, .probedS cells =>
      (cells.length == t.table_size) &&
        (t.total_elements == (cells.filterMap id).length)
  | _, _ => false

/-- Every stored entry is Python-truthy when read out of a slot (non-empty
bare keys; tuples are always truthy). -/
def HashTable.allSlotTruthy {α : Type} (K : EntryKind α)
    (t : HashTable α) : Bool :=
  t.toList.all K.slotTruthy

/-- No stored entry carries the given key. -/
def HashTable.absent {α : Type} (K : EntryKind α) (t : HashTable α)
    (key : String) : Bool :=
  t.toList.all (fun e => !(K.keyOf e == key))

/-- Stored keys are pairwise distinct. -/
def HashTable.keysNodup {α : Type} (K : EntryKind α) (t : HashTable α) : Prop :=
  (t.toList.map K.keyOf).Nodup

/-- Map entries whose values are Python strings: the truthiness of a value
is non-emptiness, exactly Python's `bool(str)`. -/
def mapEntryStr : EntryKind (String × String) :=
  mapEntry String (fun v => !(v == ""))

/-- The table obtained from `HashTable("Linear", [1, 5])` after
`insert(("a", ""))` followed by `insert(("a", "x"))`. -/
def dupKeyTable : HashTable (String × String) :=
  { collision_type := .Linear, z := 1, z2 := 0, c2 := 0, table_size := 5,
    table := .probedS [some ("a", ""), some ("a", "x"), none, none, none],
    total_elements := 2, params := none }

/-- Claim C2 fails on the code: inserting key `"a"` twice into a Linear
map table stores two entries with the same key and increments
`total_elements` twice, because `insert`'s duplicate check
`if self.find(key):` tests Python truthiness of the stored value, and the
first insert stored the falsy value `""`.  This contradicts the source's
own comment (`skip if already exists`) and the spec. -/
theorem insert_duplicate_key_bug :
    ((HashTable.init (String × String) .Linear [1, 5]).bind
        (fun t => t.insert mapEntryStr ("a", "")) |>.bind
        (fun t => t.insert mapEntryStr ("a", "x")))
      = some dupKeyTable ∧
    dupKeyTable.total_elements = 2 ∧
    dupKeyTable.toList.map Prod.fst = ["a", "a"] := by
  refine ⟨by decide, by decide, by decide⟩

/-- The table obtained from `HashTable("Chain", [1, 2])` after inserting
the keys `"a"`, `"b"`, `"c"`. -/
def chainOverfullTable : HashTable String :=
  { collision_type := .Chain, z := 1, z2 := 0, c2 := 0, table_size := 2,
    table := .chainS [["a", "c"], ["b"]], total_elements := 3,
    params := none }

/-- Counterexample to claim C8 as stated: a reachable static Chain table
(three successful inserts into a size-2 table) has `get_load() = 3/2`,
which does not lie in `[0, 1]`. -/
theorem get_load_interval_counterexample :
    ((HashTable.init String .Chain [1, 2]).bind
        (fun t => t.insert setEntry "a") |>.bind
        (fun t => t.insert setEntry "b") |>.bind
        (fun t => t.insert setEntry "c"))
      = some chainOverfullTable ∧
    chainOverfullTable.get_load = 3 / 2 ∧
    ¬ chainOverfullTable.get_load ≤ 1 := by
  refine ⟨by decide, ?_, ?_⟩
  · norm_num [HashTable.get_load, chainOverfullTable]
  · norm_num [HashTable.get_load, chainOverfullTable]

theorem wf_size_pos {α : Type} (t : HashTable α) (h : t.wf = true) :
    1 ≤ t.table_size := by
  unfold HashTable.wf at h
  exact of_decide_eq_true ((Bool.and_eq_true _ _).mp h).1

theorem wf_chain {α : Type} (t : HashTable α) (h : t.wf = true)
    (hc : t.collision_type = .Chain) :
    ∃ rows, t.table = .chainS rows ∧ rows.length = t.table_size ∧
      t.total_elements = rows.flatten.length := by
  unfold HashTable.wf at h
  have h2 := ((Bool.and_eq_true _ _).mp h).2
  rcases htb : t.table with rows | cells
  · exact ⟨rows, rfl, by
      rw [hc, htb] at h2
      simp only [Bool.and_eq_true, beq_iff_eq] at h2
      exact h2.1, by
      rw [hc, htb] at h2
      simp only [Bool.and_eq_true, beq_iff_eq] at h2
      exact h2.2⟩
  · rw [hc, htb] at h2
    simp at h2

theorem wf_probed {α : Type} (t : HashTable α) (h : t.wf = true)
    (hc : t.collision_type ≠ .Chain) :
    ∃ cells, t.table = .probedS cells ∧ cells.length = t.table_size ∧
      t.total_elements = (cells.filterMap id).length := by
  unfold HashTable.wf at h
  have h2 := ((Bool.and_eq_true _ _).mp h).2
  rcases htb : t.table with rows | cells
  · rcases hct : t.collision_type with _ | _ | _ <;>
      rw [hct, htb] at h2 <;> first
      | exact absurd hct hc
      | simp at h2
  · refine ⟨cells, rfl, ?_, ?_⟩ <;>
      rcases hct : t.collision_type with _ | _ | _ <;>
        rw [hct, htb] at h2 <;>
        simp only [Bool.and_eq_true, beq_iff_eq] at h2 <;>
        first
        | exact absurd hct hc
        | exact h2.1
        | exact h2.2

/-- Claim C8 (amended): `get_load` returns exactly
`total_elements / table_size` as a pure ratio; it is nonnegative for every
table, and lies in `[0, 1]` for every well-formed Linear or Double table.
For Chain tables the upper bound fails (see the counterexample): the count
is not bounded by the slot count. -/
theorem get_load_spec :
    (∀ (α : Type) (t : HashTable α),
        t.get_load = (t.total_elements : ℚ) / (t.table_size : ℚ) ∧
        0 ≤ t.get_load) ∧
    (∀ (α : Type) (t : HashTable α), t.wf = true →
        t.collision_type ≠ .Chain → t.get_load ≤ 1) := by
  constructor
  · intro α t
    refine ⟨rfl, ?_⟩
    unfold HashTable.get_load
    positivity
  · intro α t hwf hc
    obtain ⟨cells, _, hlen, hcount⟩ := wf_probed t hwf hc
    have hsize := wf_size_pos t hwf
    have hle : t.total_elements ≤ t.table_size := by
      calc t.total_elements = (cells.filterMap id).length := hcount
        _ ≤ cells.length := List.length_filterMap_le _ _
        _ = t.table_size := hlen
    unfold HashTable.get_load
    rw [div_le_one (by exact_mod_cast hsize)]
    exact_mod_cast hle

/-- Witness for the amended C8 at a concrete input. -/
theorem get_load_spec_witness :
    (dupKeyTable.wf = true ∧ dupKeyTable.collision_type ≠ .Chain) ∧
    dupKeyTable.get_load ≤ 1 :=
  ⟨⟨by decide, by decide⟩,
   get_load_spec.2 (String × String) dupKeyTable (by decide) (by decide)⟩

theorem nextIdx_cast (idx : Nat) (stp : Int) (size : Nat) (h : 1 ≤ size) :
    ((nextIdx idx stp size : Nat) : Int) = pymod ((idx : Int) + stp) (size : Int) := by
  have hpos : (0 : Int) < (size : Int) := by exact_mod_cast h
  have h1 := pymod_nonneg ((idx : Int) + stp) (size : Int) hpos
  unfold nextIdx
  omega

/-- The probe position `f` steps ahead of `idx` is `orig`: the arithmetic
invariant tying a probe walk back to its starting slot. -/
def reaches (orig idx : Nat) (stp : Int) (size : Nat) (f : Nat) : Prop :=
  pymod ((idx : Int) + (f : Int) * stp) (size : Int) = orig

theorem reach_step (idx orig : Nat) (stp : Int) (size : Nat) (h : 1 ≤ size)
    (f : Nat) (hr : reaches orig idx stp size (f + 1)) :
    reaches orig (nextIdx idx stp size) stp size f := by
  have hpos : (0 : Int) ≤ (size : Int) := by positivity
  unfold reaches at hr ⊢
  rw [nextIdx_cast idx stp size h]
  rw [pymod_eq_emod _ _ hpos] at hr
  rw [pymod_eq_emod _ _ hpos, pymod_eq_emod _ _ hpos, Int.emod_add_emod]
  rw [← hr]
  congr 1
  push_cast
  ring

theorem reach_one (idx orig : Nat) (stp : Int) (size : Nat) (h : 1 ≤ size)
    (hr : reaches orig idx stp size 1) :
    nextIdx idx stp size = orig := by
  unfold reaches at hr
  have := nextIdx_cast idx stp size h
  rw [show ((1 : Nat) : Int) * stp = stp by push_cast; ring] at hr
  omega

theorem reach_base (orig : Nat) (stp : Int) (size : Nat) (h1 : 1 ≤ size)
    (h2 : orig < size) : reaches orig orig stp size size := by
  have hpos : (0 : Int) ≤ (size : Int) := by positivity
  unfold reaches
  rw [pymod_eq_emod _ _ hpos, Int.add_mul_emod_self_left]
  exact Int.emod_eq_of_lt (by positivity) (by exact_mod_cast h2)

theorem mem_filterMap_of_getD {α : Type} (cells : List (Option α)) (i : Nat)
    (e : α) (h : cells.getD i none = some e) : e ∈ cells.filterMap id := by
  rw [List.getD_eq_getElem?_getD] at h
  cases hg : cells[i]? with
  | none => rw [hg] at h; simp at h
  | some o =>
      rw [hg] at h
      simp only [Option.getD_some] at h
      subst h
      exact List.mem_filterMap.mpr ⟨some e, List.getElem?_mem hg, rfl⟩

theorem probeFindLoop_full {α : Type} (K : EntryKind α)
    (cells : List (Option α)) (size : Nat) (key : String) (stp : Int)
    (orig : Nat) (hsize : 1 ≤ size)
    (hfull : ∀ i, i < size → cells.getD i none ≠ none)
    (habs : ∀ e ∈ cells.filterMap id, ¬ K.keyOf e = key) :
    ∀ f idx, idx < size → 1 ≤ f → reaches orig idx stp size f →
      probeFindLoop K cells size key stp orig f idx = .missing := by
  intro f
  induction f with
  | zero => intro idx _ hf _; omega
  | succ f ih =>
      intro idx hidx _ hr
      obtain ⟨e, he⟩ : ∃ e, cells.getD idx none = some e := by
        cases hcd : cells.getD idx none with
        | none => exact absurd hcd (hfull idx hidx)
        | some e => exact ⟨e, rfl⟩
      have hmem := mem_filterMap_of_getD cells idx e he
      rw [List.getD_eq_getElem?_getD] at he
      cases htr : K.slotTruthy e with
      | false => simp [probeFindLoop, he, htr]
      | true =>
          by_cases hio : nextIdx idx stp size = orig
          · simp [probeFindLoop, he, htr, habs e hmem, hio]
          · have hf1 : 1 ≤ f := by
              rcases Nat.eq_zero_or_pos f with hf0 | hf0
              · subst hf0
                exact absurd (reach_one idx orig stp size hsize hr) hio
              · exact hf0
            have hrec := ih (nextIdx idx stp size)
              (nextIdx_lt idx stp size hsize) hf1
              (reach_step idx orig stp size hsize f hr)
            simp [probeFindLoop, he, htr, habs e hmem, hio, hrec]

theorem probeInsLoop_full {α : Type} (cells : List (Option α)) (size : Nat)
    (stp : Int) (orig : Nat) (hsize : 1 ≤ size)
    (hfull : ∀ i, i < size → cells.getD i none ≠ none) :
    ∀ f idx, idx < size → 1 ≤ f → reaches orig idx stp size f →
      probeInsLoop cells size stp orig f idx = .full := by
  intro f
  induction f with
  | zero => intro idx _ hf _; omega
  | succ f ih =>
      intro idx hidx _ hr
      obtain ⟨e, he⟩ : ∃ e, cells.getD idx none = some e := by
        cases hcd : cells.getD idx none with
        | none => exact absurd hcd (hfull idx hidx)
        | some e => exact ⟨e, rfl⟩
      rw [List.getD_eq_getElem?_getD] at he
      by_cases hio : nextIdx idx stp size = orig
      · simp [probeInsLoop, he, hio]
      · have hf1 : 1 ≤ f := by
          rcases Nat.eq_zero_or_pos f with hf0 | hf0
          · subst hf0
            exact absurd (reach_one idx orig stp size hsize hr) hio
          · exact hf0
        have hrec := ih (nextIdx idx stp size)
          (nextIdx_lt idx stp size hsize) hf1
          (reach_step idx orig stp size hsize f hr)
        simp [probeInsLoop, he, hio, hrec]

theorem probeFindLoop_stable {α : Type} (K : EntryKind α)
    (cells : List (Option α)) (size : Nat) (key : String) (stp : Int)
    (orig : Nat) (hsize : 1 ≤ size) :
    ∀ f g idx, 1 ≤ f → f ≤ g → reaches orig idx stp size f →
      probeFindLoop K cells size key stp orig g idx
          = probeFindLoop K cells size key stp orig f idx ∧
        probeFindLoop K cells size key stp orig f idx ≠ .err := by
  intro f
  induction f with
  | zero => intro g idx hf _ _; omega
  | succ f ih =>
      intro g idx _ hfg hr
      obtain ⟨g', rfl⟩ : ∃ g', g = g' + 1 := ⟨g - 1, by omega⟩
      cases he : cells[idx]?.getD none with
      | none => simp [probeFindLoop, he]
      | some e =>
          cases htr : K.slotTruthy e with
          | false => simp [probeFindLoop, he, htr]
          | true =>
              by_cases hk : K.keyOf e = key
              · simp [probeFindLoop, he, htr, hk]
              · by_cases hio : nextIdx idx stp size = orig
                · simp [probeFindLoop, he, htr, hk, hio]
                · have hf1 : 1 ≤ f := by
                    rcases Nat.eq_zero_or_pos f with hf0 | hf0
                    · subst hf0
                      exact absurd (reach_one idx orig stp size hsize hr) hio
                    · exact hf0
                  have hrec := ih g' (nextIdx idx stp size) hf1 (by omega)
                    (reach_step idx orig stp size hsize f hr)
                  simp [probeFindLoop, he, htr, hk, hio, hrec.1, hrec.2]

theorem probeInsLoop_stable {α : Type} (cells : List (Option α)) (size : Nat)
    (stp : Int) (orig : Nat) (hsize : 1 ≤ size) :
    ∀ f g idx, 1 ≤ f → f ≤ g → reaches orig idx stp size f →
      probeInsLoop cells size stp orig g idx
          = probeInsLoop cells size stp orig f idx ∧
        probeInsLoop cells size stp orig f idx ≠ .fuelOut := by
  intro f
  induction f with
  | zero => intro g idx hf _ _; omega
  | succ f ih =>
      intro g idx _ hfg hr
      obtain ⟨g', rfl⟩ : ∃ g', g = g' + 1 := ⟨g - 1, by omega⟩
      cases he : cells[idx]?.getD none with
      | none => simp [probeInsLoop, he]
      | some e =>
          by_cases hio : nextIdx idx stp size = orig
          · simp [probeInsLoop, he, hio]
          · have hf1 : 1 ≤ f := by
              rcases Nat.eq_zero_or_pos f with hf0 | hf0
              · subst hf0
                exact absurd (reach_one idx orig stp size hsize hr) hio
              · exact hf0
            have hrec := ih g' (nextIdx idx stp size) hf1 (by omega)
              (reach_step idx orig stp size hsize f hr)
            simp [probeInsLoop, he, hio, hrec.1, hrec.2]

/-- Claim C9: for Linear (`stp = 1`) or Double probing on a table with at
least one vacant slot, the `find` and `insert` probe loops started at
`orig < size` reach a definitive answer within `size` probes: running the
loop with any fuel `≥ size` returns the same result as with fuel exactly
`size`, and that result is not the fuel-exhaustion marker.  (The vacancy
hypothesis of the claim is stated but not even needed: the source's own
cycle check bounds the loops regardless.) -/
theorem probe_loops_terminate {α : Type} (K : EntryKind α)
    (cells : List (Option α)) (size : Nat) (key : String) (stp : Int)
    (orig : Nat) (fuel : Nat)
    (hsize : 1 ≤ size) (horig : orig < size) (hfuel : size ≤ fuel)
    (hvac : ∃ i, i < size ∧ cells.getD i none = none) :
    (probeFindLoop K cells size key stp orig fuel orig
        = probeFindLoop K cells size key stp orig size orig ∧
      probeFindLoop K cells size key stp orig size orig ≠ .err) ∧
    (probeInsLoop cells size stp orig fuel orig
        = probeInsLoop cells size stp orig size orig ∧
      probeInsLoop cells size stp orig size orig ≠ .fuelOut) := by
  have hr := reach_base orig stp size hsize horig
  exact ⟨probeFindLoop_stable K cells size key stp orig hsize size fuel orig
           hsize hfuel hr,
         probeInsLoop_stable cells size stp orig hsize size fuel orig
           hsize hfuel hr⟩

/-- Witness for C9 at a concrete input. -/
theorem probe_loops_terminate_witness :
    ((1 : Nat) ≤ 3 ∧ (0 : Nat) < 3 ∧ (3 : Nat) ≤ 7 ∧
      (1 < 3 ∧ [some "b", none, none].getD 1 none = none)) ∧
    (probeFindLoop setEntry [some "b", none, none] 3 "a" 1 0 7 0
        = probeFindLoop setEntry [some "b", none, none] 3 "a" 1 0 3 0 ∧
      probeFindLoop setEntry [some "b", none, none] 3 "a" 1 0 3 0 ≠ .err) ∧
    (probeInsLoop [some "b", none, none] 3 1 0 7 0
        = probeInsLoop [some "b", none, none] 3 1 0 3 0 ∧
      probeInsLoop [some "b", none, none] 3 1 0 3 0 ≠ .fuelOut) :=
  ⟨⟨by decide, by decide, by decide, by decide, by decide⟩,
   probe_loops_terminate setEntry [some "b", none, none] 3 "a" 1 0 7
     (by decide) (by decide) (by decide) ⟨1, by decide, by decide⟩⟩

theorem absent_spec {α : Type} (K : EntryKind α) (t : HashTable α)
    (key : String) (h : t.absent K key = true) :
    ∀ e ∈ t.toList, ¬ K.keyOf e = key := by
  intro e he
  unfold HashTable.absent at h
  have := List.all_eq_true.mp h e he
  simpa using this

/-- Claim C5 (amended): for every well-formed Linear table, and every
well-formed Double table with `c2 ≠ 0`, whose slots are all occupied,
`insert` of an entry whose key is not present returns normally and leaves
the entire table state unchanged — the count and every slot.  The `c2 ≠ 0`
proviso is forced by the counterexample: with `c2 = 0` the secondary hash
raises `ZeroDivisionError` instead of silently no-opping. -/
theorem insert_full_table_noop {α : Type} (K : EntryKind α)
    (t : HashTable α) (x : α) (cells : List (Option α))
    (hwf : t.wf = true) (hct : t.collision_type ≠ .Chain)
    (hc2 : t.collision_type = .Double → t.c2 ≠ 0)
    (htb : t.table = .probedS cells)
    (hfull : ∀ i, i < t.table_size → cells.getD i none ≠ none)
    (habs : t.absent K (K.keyOf x) = true) :
    t.insert K x = some t := by
  have hsize : 1 ≤ t.table_size := wf_size_pos t hwf
  have hsize0 : ¬ t.table_size = 0 := by omega
  have horig := probe_index_bounds.1 α t (K.keyOf x) hsize
  have habs' : ∀ e ∈ cells.filterMap id, ¬ K.keyOf e = K.keyOf x := by
    intro e he
    refine absent_spec K t (K.keyOf x) habs e ?_
    unfold HashTable.toList
    rw [htb]
    exact he
  have hr := reach_base (t.get_slot (K.keyOf x)) 1 t.table_size hsize horig
  rcases hcases : t.collision_type with _ | _ | _
  · exact absurd hcases hct
  · have hfind : t.find K (K.keyOf x) = .missing := by
      unfold HashTable.find
      rw [if_neg hsize0, hcases, htb]
      exact probeFindLoop_full K cells t.table_size (K.keyOf x) 1
        (t.get_slot (K.keyOf x)) hsize hfull habs' t.table_size
        (t.get_slot (K.keyOf x)) horig hsize hr
    have hins := probeInsLoop_full cells t.table_size 1
      (t.get_slot (K.keyOf x)) hsize hfull t.table_size
      (t.get_slot (K.keyOf x)) horig hsize hr
    unfold HashTable.insert
    simp [hfind, FindRes.truthy, HashTable.insertRaw, hcases, htb, hins]
  · have hc2' : ¬ t.c2 = 0 := hc2 hcases
    have hstep : t.secondaryStep? (K.keyOf x)
        = some (t.c2 - pymod (stepAcc t.z2 (K.keyOf x)) t.c2) := by
      unfold HashTable.secondaryStep?
      rw [if_neg hc2']
    have hrs := reach_base (t.get_slot (K.keyOf x))
      (t.c2 - pymod (stepAcc t.z2 (K.keyOf x)) t.c2) t.table_size hsize horig
    have hfind : t.find K (K.keyOf x) = .missing := by
      unfold HashTable.find
      rw [if_neg hsize0, hcases, htb, hstep]
      exact probeFindLoop_full K cells t.table_size (K.keyOf x) _
        (t.get_slot (K.keyOf x)) hsize hfull habs' t.table_size
        (t.get_slot (K.keyOf x)) horig hsize hrs
    have hins := probeInsLoop_full cells t.table_size
      (t.c2 - pymod (stepAcc t.z2 (K.keyOf x)) t.c2)
      (t.get_slot (K.keyOf x)) hsize hfull t.table_size
      (t.get_slot (K.keyOf x)) horig hsize hrs
    unfold HashTable.insert
    simp [hfind, FindRes.truthy, HashTable.insertRaw, hcases, htb, hstep, hins]

/-- The concrete full Double table with `c2 = 0` used to refute claim C5
as stated. -/
def c2zeroTable : HashTable String :=
  { collision_type := .Double, z := 1, z2 := 1, c2 := 0, table_size := 1,
    table := .probedS [some "b"], total_elements := 1, params := none }

/-- Counterexample to claim C5 as stated: a well-formed Double table with
`c2 = 0` whose every slot is occupied; inserting the absent key `"a"`
raises `ZeroDivisionError` (the source computes `step % self.c2`) instead
of returning with the table unchanged. -/
theorem insert_full_table_counterexample :
    c2zeroTable.wf = true ∧
    c2zeroTable.collision_type = .Double ∧
    c2zeroTable.table = .probedS [some "b"] ∧
    c2zeroTable.absent setEntry "a" = true ∧
    c2zeroTable.insert setEntry "a" = none := by
  refine ⟨by decide, by decide, by decide, by decide, by decide⟩

/-- The concrete full Linear table witnessing the amended C5. -/
def fullLinearTable : HashTable String :=
  { collision_type := .Linear, z := 1, z2 := 0, c2 := 0, table_size := 1,
    table := .probedS [some "b"], total_elements := 1, params := none }

/-- Witness for the amended C5 at a concrete input. -/
theorem insert_full_table_noop_witness :
    (fullLinearTable.wf = true ∧
      fullLinearTable.collision_type ≠ .Chain ∧
      fullLinearTable.absent setEntry "a" = true) ∧
    fullLinearTable.insert setEntry "a" = some fullLinearTable :=
  ⟨⟨by decide, by decide, by decide⟩,
   insert_full_table_noop setEntry fullLinearTable "a" [some "b"]
     (by decide) (by decide) (by decide) rfl
     (fun i hi => by
       have h1 : fullLinearTable.table_size = 1 := rfl
       have h0 : i = 0 := by omega
       subst h0
       decide)
     (by decide)⟩

theorem flatten_set_append_perm {α : Type} (x : α) :
    ∀ (rows : List (List α)) (i : Nat), i < rows.length →
      ((rows.set i (rows.getD i [] ++ [x])).flatten).Perm
        (rows.flatten ++ [x]) := by
  intro rows
  induction rows with
  | nil => intro i h; simp at h
  | cons r rs ih =>
      intro i hi
      cases i with
      | zero =>
          simp only [List.getD_cons_zero, List.set_cons_zero,
            List.flatten_cons, List.append_assoc]
          exact List.Perm.append_left r (List.perm_append_comm)
      | succ i =>
          simp only [List.getD_cons_succ, List.set_cons_succ,
            List.flatten_cons, List.append_assoc]
          exact List.Perm.append_left r (ih i (by simpa using hi))

theorem filterMap_set_some_perm {α : Type} (x : α) :
    ∀ (cells : List (Option α)) (j : Nat), j < cells.length →
      cells.getD j none = none →
      ((cells.set j (some x)).filterMap id).Perm
        (x :: cells.filterMap id) := by
  intro cells
  induction cells with
  | nil => intro j h _; simp at h
  | cons c cs ih =>
      intro j hj hnone
      cases j with
      | zero =>
          have hc : c = none := by simpa using hnone
          subst hc
          simp [List.filterMap_cons]
      | succ j =>
          have hnone' : cs.getD j none = none := by simpa using hnone
          have hj' : j < cs.length := by simpa using hj
          cases c with
          | none =>
              simpa [List.filterMap_cons] using ih j hj' hnone'
          | some e =>
              simp only [List.set_cons_succ, List.filterMap_cons, id]
              exact ((ih j hj' hnone').cons e).trans (List.Perm.swap x e _)

theorem probeIns_free_cell {α : Type} (cells : List (Option α)) (size : Nat)
    (stp : Int) (orig : Nat) :
    ∀ f idx j, probeInsLoop cells size stp orig f idx = .free j →
      cells.getD j none = none := by
  intro f
  induction f with
  | zero => intro idx j h; simp [probeInsLoop] at h
  | succ f ih =>
      intro idx j h
      cases he : cells.getD idx none with
      | none =>
          rw [List.getD_eq_getElem?_getD] at he
          have hj : idx = j := by simpa [probeInsLoop, he] using h
          subst hj
          rw [List.getD_eq_getElem?_getD]
          exact he
      | some e =>
          rw [List.getD_eq_getElem?_getD] at he
          by_cases hio : nextIdx idx stp size = orig
          · simp [probeInsLoop, he, hio] at h
          · exact ih (nextIdx idx stp size) j
              (by simpa [probeInsLoop, he, hio] using h)

theorem probeIns_free_lt {α : Type} (cells : List (Option α)) (size : Nat)
    (stp : Int) (orig : Nat) (hsize : 1 ≤ size) :
    ∀ f idx j, idx < size →
      probeInsLoop cells size stp orig f idx = .free j → j < size := by
  intro f
  induction f with
  | zero => intro idx j _ h; simp [probeInsLoop] at h
  | succ f ih =>
      intro idx j hidx h
      cases he : cells.getD idx none with
      | none =>
          rw [List.getD_eq_getElem?_getD] at he
          have hj : idx = j := by simpa [probeInsLoop, he] using h
          omega
      | some e =>
          rw [List.getD_eq_getElem?_getD] at he
          by_cases hio : nextIdx idx stp size = orig
          · simp [probeInsLoop, he, hio] at h
          · exact ih (nextIdx idx stp size) j
              (nextIdx_lt idx stp size hsize)
              (by simpa [probeInsLoop, he, hio] using h)

theorem find_after_place {α : Type} (K : EntryKind α)
    (cells : List (Option α)) (size : Nat) (stp : Int) (orig : Nat) (x : α)
    (hsize : 1 ≤ size) (hlen : cells.length = size)
    (hx : K.slotTruthy x = true)
    (htruthy : ∀ e ∈ cells.filterMap id, K.slotTruthy e = true)
    (habs : ∀ e ∈ cells.filterMap id, ¬ K.keyOf e = K.keyOf x) :
    ∀ f idx j, idx < size →
      probeInsLoop cells size stp orig f idx = .free j →
      probeFindLoop K (cells.set j (some x)) size (K.keyOf x) stp orig f idx
        = .found x := by
  intro f
  induction f with
  | zero => intro idx j _ h; simp [probeInsLoop] at h
  | succ f ih =>
      intro idx j hidx h
      cases he : cells.getD idx none with
      | none =>
          rw [List.getD_eq_getElem?_getD] at he
          have hj : idx = j := by simpa [probeInsLoop, he] using h
          subst hj
          have hset : (cells.set idx (some x))[idx]? = some (some x) :=
            List.getElem?_set_self (by omega)
          simp [probeFindLoop, hset, hx]
      | some e =>
          have hjnone := probeIns_free_cell cells size stp orig (f + 1) idx j h
          have hne : ¬ idx = j := by
            intro hh
            rw [hh, hjnone] at he
            cases he
          have hmem := mem_filterMap_of_getD cells idx e he
          rw [List.getD_eq_getElem?_getD] at he
          have hset : (cells.set j (some x))[idx]? = cells[idx]? :=
            List.getElem?_set_ne (Ne.symm hne)
          by_cases hio : nextIdx idx stp size = orig
          · simp [probeInsLoop, he, hio] at h
          · have h' : probeInsLoop cells size stp orig f (nextIdx idx stp size)
                = .free j := by simpa [probeInsLoop, he, hio] using h
            have hrec := ih (nextIdx idx stp size) j
              (nextIdx_lt idx stp size hsize) h'
            simp [probeFindLoop, hset, he, htruthy e hmem, habs e hmem, hio,
              hrec]

theorem chain_find_after_append {α : Type} (K : EntryKind α) (x : α) :
    ∀ (row : List α), (∀ e ∈ row, ¬ K.keyOf e = K.keyOf x) →
      (row ++ [x]).find? (fun e => K.keyOf e == K.keyOf x) = some x := by
  intro row
  induction row with
  | nil => simp
  | cons e es ih =>
      intro habs
      have hne : ¬ K.keyOf e = K.keyOf x := habs e (by simp)
      simp only [List.cons_append, List.find?_cons]
      rw [show (K.keyOf e == K.keyOf x) = false by simpa using hne]
      exact ih (fun e' he' => habs e' (by simp [he']))

theorem find?_append_some {α : Type} (p : α → Bool) :
    ∀ (l₁ l₂ : List α) (e : α), l₁.find? p = some e →
      (l₁ ++ l₂).find? p = some e := by
  intro l₁
  induction l₁ with
  | nil => intro l₂ e h; simp [List.find?] at h
  | cons a as ih =>
      intro l₂ e h
      cases hp : p a with
      | true =>
          rw [List.find?_cons, hp] at h
          simp only [List.cons_append, List.find?_cons, hp]
          exact h
      | false =>
          rw [List.find?_cons, hp] at h
          simp only [List.cons_append, List.find?_cons, hp]
          exact ih l₂ e h

theorem probeFindLoop_set_preserves {α : Type} (K : EntryKind α)
    (cells : List (Option α)) (size : Nat) (key : String) (stp : Int)
    (orig j : Nat) (y : α) (hjnone : cells.getD j none = none) :
    ∀ f idx e, probeFindLoop K cells size key stp orig f idx = .found e →
      probeFindLoop K (cells.set j (some y)) size key stp orig f idx
        = .found e := by
  intro f
  induction f with
  | zero => intro idx e h; simp [probeFindLoop] at h
  | succ f ih =>
      intro idx e h
      cases he : cells.getD idx none with
      | none =>
          rw [List.getD_eq_getElem?_getD] at he
          simp [probeFindLoop, he] at h
      | some e' =>
          have hne : ¬ idx = j := by
            intro hh
            rw [hh, hjnone] at he
            cases he
          rw [List.getD_eq_getElem?_getD] at he
          have hset : (cells.set j (some y))[idx]? = cells[idx]? :=
            List.getElem?_set_ne (Ne.symm hne)
          cases htr : K.slotTruthy e' with
          | false => simp [probeFindLoop, he, htr] at h
          | true =>
              by_cases hk : K.keyOf e' = key
              · have he'e : e' = e := by
                  simpa [probeFindLoop, he, htr, hk] using h
                subst he'e
                simp [probeFindLoop, hset, he, htr, hk]
              · by_cases hio : nextIdx idx stp size = orig
                · simp [probeFindLoop, he, htr, hk, hio] at h
                · have h' := by
                    simpa [probeFindLoop, he, htr, hk, hio] using h
                  simp [probeFindLoop, hset, he, htr, hk, hio, ih _ _ h']


theorem find_err_of_size_zero {α : Type} (K : EntryKind α) (t : HashTable α)
    (key : String) (hs : t.table_size = 0) : t.find K key = .err := by
  unfold HashTable.find
  rw [if_pos hs]

theorem insertRaw_cases {α : Type} (K : EntryKind α) (t t' : HashTable α)
    (x : α) (hsize : 1 ≤ t.table_size)
    (hins : t.insertRaw K x = some t') :
    t' = t ∨
    (t'.collision_type = t.collision_type ∧ t'.z = t.z ∧ t'.z2 = t.z2 ∧
     t'.c2 = t.c2 ∧ t'.table_size = t.table_size ∧ t'.params = t.params ∧
     t'.total_elements = t.total_elements + 1 ∧
     ((∃ rows, t.collision_type = .Chain ∧ t.table = .chainS rows ∧
         t'.table = .chainS (rows.set (t.get_slot (K.keyOf x))
           (rows.getD (t.get_slot (K.keyOf x)) [] ++ [x]))) ∨
      (∃ cells stp j, t.table = .probedS cells ∧
         t.collision_type ≠ .Chain ∧
         (t.collision_type = .Linear → stp = 1) ∧
         (t.collision_type = .Double →
            t.secondaryStep? (K.keyOf x) = some stp) ∧
         probeInsLoop cells t.table_size stp (t.get_slot (K.keyOf x))
           t.table_size (t.get_slot (K.keyOf x)) = .free j ∧
         cells.getD j none = none ∧ j < t.table_size ∧
         t'.table = .probedS (cells.set j (some x))))) := by
  have horig := probe_index_bounds.1 α t (K.keyOf x) hsize
  unfold HashTable.insertRaw at hins
  rcases hct : t.collision_type with _ | _ | _ <;>
    rcases htb : t.table with rows | cells <;>
    simp only [hct, htb] at hins
  · -- Chain, chainS
    rw [Option.some.injEq] at hins
    subst hins
    exact Or.inr ⟨rfl, rfl, rfl, rfl, rfl, rfl, rfl,
      Or.inl ⟨rows, rfl, rfl, rfl⟩⟩
  · -- Chain, probedS: unreachable
    exact absurd hins (by simp)
  · -- Linear, chainS: unreachable
    exact absurd hins (by simp)
  · -- Linear, probedS
    split at hins
    · exact absurd hins (by simp)
    · exact Or.inl (Option.some.inj hins).symm
    · rename_i j hloop
      rw [Option.some.injEq] at hins
      subst hins
      refine Or.inr ⟨rfl, rfl, rfl, rfl, rfl, rfl, rfl,
        Or.inr ⟨cells, 1, j, rfl, by decide, fun _ => rfl,
          fun hd => absurd hd (by decide), hloop, ?_, ?_, rfl⟩⟩
      · exact probeIns_free_cell cells t.table_size 1
          (t.get_slot (K.keyOf x)) t.table_size (t.get_slot (K.keyOf x)) j
          hloop
      · exact probeIns_free_lt cells t.table_size 1
          (t.get_slot (K.keyOf x)) hsize t.table_size
          (t.get_slot (K.keyOf x)) j horig hloop
  · -- Double, chainS: unreachable
    exact absurd hins (by simp)
  · -- Double, probedS
    split at hins
    · exact absurd hins (by simp)
    · rename_i stp hstep
      split at hins
      · exact absurd hins (by simp)
      · exact Or.inl (Option.some.inj hins).symm
      · rename_i j hloop
        rw [Option.some.injEq] at hins
        subst hins
        refine Or.inr ⟨rfl, rfl, rfl, rfl, rfl, rfl, rfl,
          Or.inr ⟨cells, stp, j, rfl, by decide,
            fun hl => absurd hl (by decide), fun _ => hstep, hloop, ?_, ?_,
            rfl⟩⟩
        · exact probeIns_free_cell cells t.table_size stp
            (t.get_slot (K.keyOf x)) t.table_size (t.get_slot (K.keyOf x)) j
            hloop
        · exact probeIns_free_lt cells t.table_size stp
            (t.get_slot (K.keyOf x)) hsize t.table_size
            (t.get_slot (K.keyOf x)) j horig hloop

theorem insert_cases {α : Type} (K : EntryKind α) (t t' : HashTable α)
    (x : α) (hins : t.insert K x = some t') :
    1 ≤ t.table_size ∧
    (t' = t ∨
     (t'.collision_type = t.collision_type ∧ t'.z = t.z ∧ t'.z2 = t.z2 ∧
      t'.c2 = t.c2 ∧ t'.table_size = t.table_size ∧ t'.params = t.params ∧
      t'.total_elements = t.total_elements + 1 ∧
      ((∃ rows, t.collision_type = .Chain ∧ t.table = .chainS rows ∧
          t'.table = .chainS (rows.set (t.get_slot (K.keyOf x))
            (rows.getD (t.get_slot (K.keyOf x)) [] ++ [x]))) ∨
       (∃ cells stp j, t.table = .probedS cells ∧
          t.collision_type ≠ .Chain ∧
          (t.collision_type = .Linear → stp = 1) ∧
          (t.collision_type = .Double →
             t.secondaryStep? (K.keyOf x) = some stp) ∧
          probeInsLoop cells t.table_size stp (t.get_slot (K.keyOf x))
            t.table_size (t.get_slot (K.keyOf x)) = .free j ∧
          cells.getD j none = none ∧ j < t.table_size ∧
          t'.table = .probedS (cells.set j (some x)))))) := by
  have hsize : 1 ≤ t.table_size := by
    by_cases hs : t.table_size = 0
    · exfalso
      have hferr := find_err_of_size_zero K t (K.keyOf x) hs
      simp only [HashTable.insert, hferr] at hins
      exact absurd hins (by simp)
    · omega
  refine ⟨hsize, ?_⟩
  unfold HashTable.insert at hins
  rcases hfr : t.find K (K.keyOf x) with e | _ | _ <;>
    simp only [hfr] at hins
  · by_cases htru : FindRes.truthy K (.found e) = true
    · rw [if_pos htru] at hins
      exact Or.inl (Option.some.inj hins).symm
    · rw [if_neg htru] at hins
      exact insertRaw_cases K t t' x hsize hins
  · rw [if_neg (by simp [FindRes.truthy])] at hins
    exact insertRaw_cases K t t' x hsize hins
  · exact absurd hins (by simp)

theorem get_slot_congr {α : Type} (t t' : HashTable α) (hz : t'.z = t.z)
    (hts : t'.table_size = t.table_size) (key : String) :
    t'.get_slot key = t.get_slot key := by
  unfold HashTable.get_slot
  rw [hz, hts]

theorem secondaryStep_congr {α : Type} (t t' : HashTable α)
    (hz2 : t'.z2 = t.z2) (hc2 : t'.c2 = t.c2) (key : String) :
    t'.secondaryStep? key = t.secondaryStep? key := by
  unfold HashTable.secondaryStep?
  rw [hz2, hc2]

theorem toList_chainS {α : Type} (t : HashTable α) (rows : List (List α))
    (h : t.table = .chainS rows) : t.toList = rows.flatten := by
  unfold HashTable.toList
  rw [h]

theorem toList_probedS {α : Type} (t : HashTable α)
    (cells : List (Option α)) (h : t.table = .probedS cells) :
    t.toList = cells.filterMap id := by
  unfold HashTable.toList
  rw [h]

theorem wf_build_chain {α : Type} (t : HashTable α) (rows : List (List α))
    (hct : t.collision_type = .Chain) (htb : t.table = .chainS rows)
    (hsize : 1 ≤ t.table_size) (hlen : rows.length = t.table_size)
    (hcount : t.total_elements = rows.flatten.length) : t.wf = true := by
  unfold HashTable.wf
  simp only [hct, htb]
  simp [hsize, hlen, hcount]

theorem wf_build_probed {α : Type} (t : HashTable α)
    (cells : List (Option α)) (hct : t.collision_type ≠ .Chain)
    (htb : t.table = .probedS cells) (hsize : 1 ≤ t.table_size)
    (hlen : cells.length = t.table_size)
    (hcount : t.total_elements = (cells.filterMap id).length) :
    t.wf = true := by
  unfold HashTable.wf
  rcases hc : t.collision_type with _ | _ | _
  · exact absurd hc hct
  · simp only [hc, htb]
    simp [hsize, hlen, hcount]
  · simp only [hc, htb]
    simp [hsize, hlen, hcount]

theorem insert_state {α : Type} (K : EntryKind α) (t t' : HashTable α)
    (x : α) (hwf : t.wf = true) (hins : t.insert K x = some t') :
    t'.wf = true ∧ t'.collision_type = t.collision_type ∧ t'.z = t.z ∧
    t'.z2 = t.z2 ∧ t'.c2 = t.c2 ∧ t'.table_size = t.table_size ∧
    t'.params = t.params ∧
    t.total_elements ≤ t'.total_elements ∧
    t'.total_elements ≤ t.total_elements + 1 ∧
    (t'.toList = t.toList ∨ t'.toList.Perm (x :: t.toList)) ∧
    (t'.total_elements = t.total_elements + 1 →
       t'.toList.Perm (x :: t.toList)) := by
  obtain ⟨hsize, hcase⟩ := insert_cases K t t' x hins
  rcases hcase with rfl | ⟨hct, hz, hz2, hc2, hts, hp, hcount, hshape⟩
  · exact ⟨hwf, rfl, rfl, rfl, rfl, rfl, rfl, le_refl _, by omega,
      Or.inl rfl, fun h => absurd h (by omega)⟩
  · rcases hshape with ⟨rows, hctc, htb, htb'⟩ |
      ⟨cells, stp, j, htb, _, _, _, _, hjnone, hjlt, htb'⟩
    · obtain ⟨rows₀, htb₀, hlen, hcnt⟩ := wf_chain t hwf hctc
      have hrows : rows₀ = rows := by
        rw [htb] at htb₀
        exact (Slots.chainS.inj htb₀).symm
      subst hrows
      have hidx : t.get_slot (K.keyOf x) < rows₀.length := by
        rw [hlen]
        exact probe_index_bounds.1 α t (K.keyOf x) hsize
      have hperm : t'.toList.Perm (x :: t.toList) := by
        rw [toList_chainS t' _ htb', toList_chainS t _ htb]
        exact (flatten_set_append_perm x rows₀ _ hidx).trans
          List.perm_append_comm
      have hwf' : t'.wf = true := by
        refine wf_build_chain t' _ (hct.trans hctc) htb' (by omega) ?_ ?_
        · rw [List.length_set, hlen, hts]
        · have hl := hperm.length_eq
          rw [toList_chainS t' _ htb', toList_chainS t _ htb] at hl
          simp only [List.length_cons] at hl
          omega
      exact ⟨hwf', hct, hz, hz2, hc2, hts, hp, by omega, by omega,
        Or.inr hperm, fun _ => hperm⟩
    · obtain ⟨cells₀, htb₀, hlen, hcnt⟩ := wf_probed t hwf
        (by rcases hshape₂ : t.collision_type with _ | _ | _ <;> simp_all)
      have hcells : cells₀ = cells := by
        rw [htb] at htb₀
        exact (Slots.probedS.inj htb₀).symm
      subst hcells
      have hperm : t'.toList.Perm (x :: t.toList) := by
        rw [toList_probedS t' _ htb', toList_probedS t _ htb]
        exact filterMap_set_some_perm x cells₀ j (by omega) hjnone
      have hwf' : t'.wf = true := by
        refine wf_build_probed t' _ ?_ htb' (by omega) ?_ ?_
        · intro hc'
          rw [hct] at hc'
          rcases hctt : t.collision_type with _ | _ | _ <;> simp_all
        · rw [List.length_set, hlen, hts]
        · have hl := hperm.length_eq
          rw [toList_probedS t' _ htb', toList_probedS t _ htb] at hl
          simp only [List.length_cons] at hl
          omega
      exact ⟨hwf', hct, hz, hz2, hc2, hts, hp, by omega, by omega,
        Or.inr hperm, fun _ => hperm⟩

theorem allSlotTruthy_spec {α : Type} (K : EntryKind α) (t : HashTable α)
    (h : t.allSlotTruthy K = true) :
    ∀ e ∈ t.toList, K.slotTruthy e = true := by
  intro e he
  unfold HashTable.allSlotTruthy at h
  exact List.all_eq_true.mp h e he

theorem getD_row_mem {α : Type} (rows : List (List α)) (i : Nat)
    (hi : i < rows.length) (e : α) (he : e ∈ rows.getD i []) :
    e ∈ rows.flatten := by
  rw [List.getD_eq_getElem?_getD, List.getElem?_eq_getElem hi] at he
  exact List.mem_flatten_of_mem (List.getElem_mem hi) he

theorem insert_success_found {α : Type} (K : EntryKind α)
    (t t' : HashTable α) (x : α)
    (hwf : t.wf = true) (htr : t.allSlotTruthy K = true)
    (habs : t.absent K (K.keyOf x) = true) (hx : K.slotTruthy x = true)
    (hins : t.insert K x = some t')
    (hcount : t'.total_elements = t.total_elements + 1) :
    t'.find K (K.keyOf x) = .found x := by
  obtain ⟨hsize, hcase⟩ := insert_cases K t t' x hins
  rcases hcase with rfl | ⟨hct, hz, hz2, hc2, hts, hp, _, hshape⟩
  · exact absurd hcount (by omega)
  · have hslot := get_slot_congr t t' hz hts (K.keyOf x)
    have hsize0' : ¬ t'.table_size = 0 := by omega
    rcases hshape with ⟨rows, hctc, htb, htb'⟩ |
      ⟨cells, stp, j, htb, hnchain, hlin, hdou, hloop, hjnone, hjlt, htb'⟩
    · -- Chain placement
      obtain ⟨rows₀, htb₀, hlen, _⟩ := wf_chain t hwf hctc
      have hrows : rows₀ = rows := by
        rw [htb] at htb₀
        exact (Slots.chainS.inj htb₀).symm
      subst hrows
      have hidx : t.get_slot (K.keyOf x) < rows₀.length := by
        rw [hlen]
        exact probe_index_bounds.1 α t (K.keyOf x) hsize
      have hrowset : (rows₀.set (t.get_slot (K.keyOf x))
            (rows₀.getD (t.get_slot (K.keyOf x)) [] ++ [x])).getD
            (t.get_slot (K.keyOf x)) []
          = rows₀.getD (t.get_slot (K.keyOf x)) [] ++ [x] := by
        rw [List.getD_eq_getElem?_getD, List.getElem?_set_self (by omega)]
        rfl
      have hfindrow : ((rows₀.getD (t.get_slot (K.keyOf x)) [] ++ [x]).find?
          (fun e => K.keyOf e == K.keyOf x)) = some x := by
        refine chain_find_after_append K x _ (fun e he => ?_)
        refine absent_spec K t (K.keyOf x) habs e ?_
        rw [toList_chainS t _ htb]
        exact getD_row_mem rows₀ _ hidx e he
      unfold HashTable.find
      rw [if_neg hsize0']
      simp only [hct.trans hctc, htb', hslot, hrowset, hfindrow]
    · -- probed placement
      obtain ⟨cells₀, htb₀, hlen, _⟩ := wf_probed t hwf hnchain
      have hcells : cells₀ = cells := by
        rw [htb] at htb₀
        exact (Slots.probedS.inj htb₀).symm
      subst hcells
      have horig := probe_index_bounds.1 α t (K.keyOf x) hsize
      have htruthy' : ∀ e ∈ cells₀.filterMap id, K.slotTruthy e = true := by
        intro e he
        refine allSlotTruthy_spec K t htr e ?_
        rw [toList_probedS t _ htb]
        exact he
      have habs' : ∀ e ∈ cells₀.filterMap id, ¬ K.keyOf e = K.keyOf x := by
        intro e he
        refine absent_spec K t (K.keyOf x) habs e ?_
        rw [toList_probedS t _ htb]
        exact he
      have hfound := find_after_place K cells₀ t.table_size stp
        (t.get_slot (K.keyOf x)) x hsize hlen hx htruthy' habs'
        t.table_size (t.get_slot (K.keyOf x)) j horig hloop
      rcases hctt : t.collision_type with _ | _ | _
      · exact absurd hctt hnchain
      · have hstp : stp = 1 := hlin hctt
        subst hstp
        unfold HashTable.find
        rw [if_neg hsize0']
        simp only [hct.trans hctt, htb', hslot, hts]
        exact hfound
      · have hstep := hdou hctt
        have hstep' : t'.secondaryStep? (K.keyOf x) = some stp :=
          (secondaryStep_congr t t' hz2 hc2 (K.keyOf x)).trans hstep
        unfold HashTable.find
        rw [if_neg hsize0']
        simp only [hct.trans hctt, htb', hslot, hts, hstep']
        exact hfound

theorem insert_preserves_found {α : Type} (K : EntryKind α)
    (t t' : HashTable α) (y : α) (key : String) (e : α)
    (hwf : t.wf = true) (hins : t.insert K y = some t')
    (hf : t.find K key = .found e) : t'.find K key = .found e := by
  obtain ⟨hsize, hcase⟩ := insert_cases K t t' y hins
  rcases hcase with rfl | ⟨hct, hz, hz2, hc2, hts, hp, _, hshape⟩
  · exact hf
  · have hslot := get_slot_congr t t' hz hts key
    have hsize0 : ¬ t.table_size = 0 := by omega
    have hsize0' : ¬ t'.table_size = 0 := by omega
    rcases hshape with ⟨rows, hctc, htb, htb'⟩ |
      ⟨cells, stp, j, htb, hnchain, _, _, _, hjnone, hjlt, htb'⟩
    · -- chain
      obtain ⟨rows₀, htb₀, hlen, _⟩ := wf_chain t hwf hctc
      have hrows : rows₀ = rows := by
        rw [htb] at htb₀
        exact (Slots.chainS.inj htb₀).symm
      subst hrows
      unfold HashTable.find at hf
      rw [if_neg hsize0] at hf
      simp only [hctc, htb] at hf
      split at hf
      · rename_i e' heq
        have he' : e' = e := by
          simpa using hf
        subst he'
        unfold HashTable.find
        rw [if_neg hsize0']
        simp only [hct.trans hctc, htb', hslot]
        by_cases heq2 : t.get_slot key = t.get_slot (K.keyOf y)
        · have hidx : t.get_slot (K.keyOf y) < rows₀.length := by
            rw [hlen]
            exact probe_index_bounds.1 α t (K.keyOf y) hsize
          have hrowset : (rows₀.set (t.get_slot (K.keyOf y))
                (rows₀.getD (t.get_slot (K.keyOf y)) [] ++ [y])).getD
                (t.get_slot key) []
              = rows₀.getD (t.get_slot (K.keyOf y)) [] ++ [y] := by
            rw [heq2, List.getD_eq_getElem?_getD,
              List.getElem?_set_self (by omega)]
            rfl
          rw [hrowset]
          rw [heq2] at heq
          rw [find?_append_some _ _ _ _ heq]
        · have hrowset : (rows₀.set (t.get_slot (K.keyOf y))
                  (rows₀.getD (t.get_slot (K.keyOf y)) [] ++ [y])).getD
                  (t.get_slot key) []
                = rows₀.getD (t.get_slot key) [] := by
              rw [List.getD_eq_getElem?_getD,
                List.getElem?_set_ne (fun hh => heq2 hh.symm),
                ← List.getD_eq_getElem?_getD]
          rw [hrowset, heq]
      · rename_i heq
        simp at hf
    · -- probed
      obtain ⟨cells₀, htb₀, hlen, _⟩ := wf_probed t hwf hnchain
      have hcells : cells₀ = cells := by
        rw [htb] at htb₀
        exact (Slots.probedS.inj htb₀).symm
      subst hcells
      unfold HashTable.find at hf
      rw [if_neg hsize0] at hf
      rcases hctt : t.collision_type with _ | _ | _
      · exact absurd hctt hnchain
      · simp only [hctt, htb] at hf
        unfold HashTable.find
        rw [if_neg hsize0']
        simp only [hct.trans hctt, htb', hslot, hts]
        exact probeFindLoop_set_preserves K cells₀ t.table_size key 1
          (t.get_slot key) j y hjnone t.table_size (t.get_slot key) e hf
      · simp only [hctt, htb] at hf
        split at hf
        · simp at hf
        · rename_i stpk hstepk
          unfold HashTable.find
          rw [if_neg hsize0']
          have hstep' : t'.secondaryStep? key = some stpk :=
            (secondaryStep_congr t t' hz2 hc2 key).trans hstepk
          simp only [hct.trans hctt, htb', hslot, hts, hstep']
          exact probeFindLoop_set_preserves K cells₀ t.table_size key stpk
            (t.get_slot key) j y hjnone t.table_size (t.get_slot key) e hf

theorem insert_count_bounds {α : Type} (K : EntryKind α)
    (t t' : HashTable α) (x : α) (h : t.insert K x = some t') :
    t.total_elements ≤ t'.total_elements ∧
    t'.total_elements ≤ t.total_elements + 1 := by
  obtain ⟨_, hcase⟩ := insert_cases K t t' x h
  rcases hcase with rfl | ⟨_, _, _, _, _, _, hc, _⟩ <;> omega

theorem insertAll_cons_some {α : Type} (K : EntryKind α) (y : α)
    (ys : List α) (s s' : HashTable α)
    (h : insertAll K (y :: ys) s = some s') :
    ∃ s₁, s.insert K y = some s₁ ∧ insertAll K ys s₁ = some s' := by
  cases hsy : s.insert K y with
  | none =>
      unfold insertAll at h
      rw [hsy] at h
      exact Option.noConfusion h
  | some s₁ =>
      unfold insertAll at h
      rw [hsy] at h
      exact ⟨s₁, rfl, h⟩

theorem insertAll_count {α : Type} (K : EntryKind α) :
    ∀ (es : List α) (s s' : HashTable α), insertAll K es s = some s' →
      s.total_elements ≤ s'.total_elements ∧
      s'.total_elements ≤ s.total_elements + es.length := by
  intro es
  induction es with
  | nil =>
      intro s s' h
      simp only [insertAll, Option.some.injEq] at h
      subst h
      omega
  | cons y ys ih =>
      intro s s' h
      obtain ⟨s₁, hsy, hall⟩ := insertAll_cons_some K y ys s s' h
      have h1 := insert_count_bounds K s s₁ y hsy
      have h2 := ih s₁ s' hall
      simp only [List.length_cons]
      omega

theorem insertAll_preserves_found {α : Type} (K : EntryKind α) :
    ∀ (es : List α) (s s' : HashTable α) (key : String) (e : α),
      s.wf = true → insertAll K es s = some s' →
      s.find K key = .found e → s'.find K key = .found e := by
  intro es
  induction es with
  | nil =>
      intro s s' key e _ h hf
      simp only [insertAll, Option.some.injEq] at h
      subst h
      exact hf
  | cons y ys ih =>
      intro s s' key e hwf h hf
      obtain ⟨s₁, hsy, hall⟩ := insertAll_cons_some K y ys s s' h
      have hwf₁ := (insert_state K s s₁ y hwf hsy).1
      exact ih s₁ s' key e hwf₁ hall
        (insert_preserves_found K s s₁ y key e hwf hsy hf)

theorem insert_size_zero {α : Type} (K : EntryKind α) (t : HashTable α)
    (x : α) (hs : t.table_size = 0) : t.insert K x = none := by
  have hferr := find_err_of_size_zero K t (K.keyOf x) hs
  simp only [HashTable.insert, hferr]

theorem insertAll_found {α : Type} (K : EntryKind α) :
    ∀ (es : List α) (s s' : HashTable α),
      s.wf = true → s.allSlotTruthy K = true →
      (∀ e ∈ es, K.slotTruthy e = true) →
      (s.toList.map K.keyOf ++ es.map K.keyOf).Nodup →
      insertAll K es s = some s' →
      s'.total_elements = s.total_elements + es.length →
      ∀ x ∈ es, s'.find K (K.keyOf x) = .found x := by
  intro es
  induction es with
  | nil =>
      intro s s' _ _ _ _ _ _ x hx
      simp at hx
  | cons y ys ih =>
      intro s s' hwf htr hestr hnodup hall hcount x hx
      obtain ⟨s₁, hsy, hall'⟩ := insertAll_cons_some K y ys s s' hall
      obtain ⟨hwf₁, hct₁, hz₁, hz2₁, hc2₁, hts₁, hp₁, hmono, hle, _, hplus⟩ :=
        insert_state K s s₁ y hwf hsy
      have hcnt₁ : s₁.total_elements = s.total_elements + 1 := by
        have hbounds := insertAll_count K ys s₁ s' hall'
        simp only [List.length_cons] at hcount
        omega
      have hperm₁ : s₁.toList.Perm (y :: s.toList) := hplus hcnt₁
      have hkeyy : K.keyOf y ∉ s.toList.map K.keyOf := by
        have hdisj := (List.nodup_append.mp hnodup).2.2
        intro hmem
        exact hdisj hmem (by simp)
      have habs : s.absent K (K.keyOf y) = true := by
        unfold HashTable.absent
        refine List.all_eq_true.mpr (fun e he => ?_)
        simp only [Bool.not_eq_eq_eq_not, Bool.not_true, beq_eq_false_iff_ne,
          ne_eq]
        intro hk
        exact hkeyy (by
          refine List.mem_map.mpr ⟨e, he, hk⟩)
      have hy := hestr y (by simp)
      have hfy := insert_success_found K s s₁ y hwf htr habs hy hsy hcnt₁
      have htr₁ : s₁.allSlotTruthy K = true := by
        unfold HashTable.allSlotTruthy
        refine List.all_eq_true.mpr (fun e he => ?_)
        rcases List.mem_cons.mp ((hperm₁.mem_iff).mp he) with h | h
        · exact h ▸ hy
        · exact allSlotTruthy_spec K s htr e h
      have hkeysperm : (s₁.toList.map K.keyOf ++ ys.map K.keyOf).Perm
          (s.toList.map K.keyOf ++ (y :: ys).map K.keyOf) := by
        refine ((hperm₁.map K.keyOf).append_right (ys.map K.keyOf)).trans ?_
        simp only [List.map_cons, List.cons_append]
        exact (List.perm_middle).symm
      have hnodup₁ : (s₁.toList.map K.keyOf ++ ys.map K.keyOf).Nodup :=
        (hkeysperm.nodup_iff).mpr hnodup
      rcases List.mem_cons.mp hx with rfl | hx'
      · exact insertAll_preserves_found K ys s₁ s' (K.keyOf x) x hwf₁ hall'
          hfy
      · refine ih s₁ s' hwf₁ htr₁ (fun e he => hestr e (by simp [he]))
          hnodup₁ hall' ?_ x hx'
        simp only [List.length_cons] at hcount
        omega

theorem flatten_replicate_nil {α : Type} (n : Nat) :
    (List.replicate n ([] : List α)).flatten = [] := by
  induction n with
  | zero => rfl
  | succ n ih => simp [List.replicate_succ, ih]

theorem filterMap_replicate_none {α : Type} (n : Nat) :
    (List.replicate n (none : Option α)).filterMap id = [] := by
  induction n with
  | zero => rfl
  | succ n ih => simp [List.replicate_succ, ih]

theorem wf_count_toList {α : Type} (t : HashTable α) (h : t.wf = true) :
    t.total_elements = t.toList.length := by
  rcases hct : t.collision_type with _ | _ | _
  · obtain ⟨rows, htb, _, hcnt⟩ := wf_chain t h hct
    rw [toList_chainS t _ htb]
    exact hcnt
  · obtain ⟨cells, htb, _, hcnt⟩ := wf_probed t h (by rw [hct]; decide)
    rw [toList_probedS t _ htb]
    exact hcnt
  · obtain ⟨cells, htb, _, hcnt⟩ := wf_probed t h (by rw [hct]; decide)
    rw [toList_probedS t _ htb]
    exact hcnt

theorem rehash_found {α : Type} (K : EntryKind α) (t : HashTable α)
    (ns : Nat) (t'' : HashTable α) (x : α)
    (hwf : t.wf = true) (htr : t.allSlotTruthy K = true)
    (hnodup : t.keysNodup K) (hx : x ∈ t.toList)
    (hreh : t.rehash K ns = some t'')
    (hcnt : t''.total_elements = t.total_elements) :
    t''.find K (K.keyOf x) = .found x := by
  simp only [HashTable.rehash] at hreh
  by_cases hns : ns = 0
  · exfalso
    rcases hlist : t.toList with _ | ⟨y, ys⟩
    · rw [hlist] at hx
      simp at hx
    · rw [hlist] at hreh
      obtain ⟨s₁, hins1, _⟩ := insertAll_cons_some K y ys _ t'' hreh
      rw [insert_size_zero K _ y (by simpa using hns)] at hins1
      exact Option.noConfusion hins1
  · have hns1 : 1 ≤ ns := by omega
    have hcount0 := wf_count_toList t hwf
    rcases hctt : t.collision_type with _ | _ | _ <;>
      simp only [hctt] at hreh
    · refine insertAll_found K t.toList _ t'' ?_ ?_
        (allSlotTruthy_spec K t htr) ?_ hreh ?_ x hx
      · exact wf_build_chain _ (List.replicate ns []) rfl rfl hns1
          (by simp) (by simp [flatten_replicate_nil])
      · simp [HashTable.allSlotTruthy, HashTable.toList, flatten_replicate_nil]
      · simpa [HashTable.toList, flatten_replicate_nil,
          HashTable.keysNodup] using hnodup
      · simpa using hcnt.trans hcount0
    · refine insertAll_found K t.toList _ t'' ?_ ?_
        (allSlotTruthy_spec K t htr) ?_ hreh ?_ x hx
      · exact wf_build_probed _ (List.replicate ns none)
          (fun h => Strategy.noConfusion h) rfl hns1 (by simp)
          (by simp [filterMap_replicate_none])
      · simp [HashTable.allSlotTruthy, HashTable.toList,
          filterMap_replicate_none]
      · simpa [HashTable.toList, filterMap_replicate_none,
          HashTable.keysNodup] using hnodup
      · simpa using hcnt.trans hcount0
    · refine insertAll_found K t.toList _ t'' ?_ ?_
        (allSlotTruthy_spec K t htr) ?_ hreh ?_ x hx
      · exact wf_build_probed _ (List.replicate ns none)
          (fun h => Strategy.noConfusion h) rfl hns1 (by simp)
          (by simp [filterMap_replicate_none])
      · simp [HashTable.allSlotTruthy, HashTable.toList,
          filterMap_replicate_none]
      · simpa [HashTable.toList, filterMap_replicate_none,
          HashTable.keysNodup] using hnodup
      · simpa using hcnt.trans hcount0

/-- Claim C1 (amended): for every well-formed table of any strategy, Set or
Map, whose stored entries are Python-truthy in their slots and have
pairwise distinct keys, if the key of a truthy entry `x` is genuinely
absent and `insert x` succeeds (the count is incremented), then a
subsequent `find` on that key returns the stored entry — value for a Map,
`True` for a Set — and the property still holds after a `rehash` that
completes without dropping entries (its count is preserved).  The
truthiness and genuine-absence provisos are forced by the counterexample:
a stored falsy value defeats the source's truthiness-based duplicate
check. -/
theorem insert_find_roundtrip {α : Type} (K : EntryKind α)
    (t t' : HashTable α) (x : α)
    (hwf : t.wf = true) (htr : t.allSlotTruthy K = true)
    (hnodup : t.keysNodup K)
    (habs : t.absent K (K.keyOf x) = true) (hx : K.slotTruthy x = true)
    (hins : t.insert K x = some t')
    (hcount : t'.total_elements = t.total_elements + 1) :
    t'.find K (K.keyOf x) = .found x ∧
    ∀ (ns : Nat) (t'' : HashTable α), t'.rehash K ns = some t'' →
      t''.total_elements = t'.total_elements →
      t''.find K (K.keyOf x) = .found x := by
  obtain ⟨hwf', _, _, _, _, _, _, _, _, _, hplus⟩ :=
    insert_state K t t' x hwf hins
  have hperm := hplus hcount
  have hfound := insert_success_found K t t' x hwf htr habs hx hins hcount
  refine ⟨hfound, fun ns t'' hreh hcnt => ?_⟩
  have htr' : t'.allSlotTruthy K = true := by
    unfold HashTable.allSlotTruthy
    refine List.all_eq_true.mpr (fun e he => ?_)
    rcases List.mem_cons.mp ((hperm.mem_iff).mp he) with h | h
    · exact h ▸ hx
    · exact allSlotTruthy_spec K t htr e h
  have hnotmem : K.keyOf x ∉ t.toList.map K.keyOf := by
    intro hmem
    obtain ⟨e, he, hk⟩ := List.mem_map.mp hmem
    exact absent_spec K t (K.keyOf x) habs e he hk
  have hnodup' : t'.keysNodup K := by
    unfold HashTable.keysNodup
    refine ((hperm.map K.keyOf).nodup_iff).mpr ?_
    simp only [List.map_cons]
    exact List.nodup_cons.mpr ⟨hnotmem, hnodup⟩
  exact rehash_found K t' ns t'' x hwf' htr' hnodup'
    ((hperm.mem_iff).mpr (by simp)) hreh hcnt

/-- The table obtained from `HashMap("Chain", [1, 5])` after
`insert(("a", ""))` and `insert(("a", "x"))`. -/
def falsyRoundtripTable : HashTable (String × String) :=
  { collision_type := .Chain, z := 1, z2 := 0, c2 := 0, table_size := 5,
    table := .chainS [[("a", ""), ("a", "x")], [], [], [], []],
    total_elements := 2, params := none }

/-- Counterexample to claim C1 as stated: in a Chain map table the insert
of `("a", "x")` succeeds (count is incremented from 1 to 2, because the
duplicate check `if self.find(key):` sees the falsy stored value `""`),
yet the subsequent `find("a")` returns the first entry's value `""`, not
the associated value `"x"` of the inserted entry. -/
theorem insert_find_roundtrip_counterexample :
    ((HashTable.init (String × String) .Chain [1, 5]).bind
        (fun t => t.insert mapEntryStr ("a", "")) |>.bind
        (fun t => t.insert mapEntryStr ("a", "x")))
      = some falsyRoundtripTable ∧
    falsyRoundtripTable.total_elements = 2 ∧
    falsyRoundtripTable.find mapEntryStr "a" = .found ("a", "") ∧
    ("a", "") ≠ (("a", "x") : String × String) := by
  refine ⟨by decide, by decide, by decide, by decide⟩

/-- Concrete Linear tables used to witness the amended C1: empty size-3
table, the table after `insert("a")`, and the table after a rehash to
size 7. -/
def linTable3 : HashTable String :=
  { collision_type := .Linear, z := 1, z2 := 0, c2 := 0, table_size := 3,
    table := .probedS [none, none, none], total_elements := 0,
    params := none }

def linTable3i : HashTable String :=
  { collision_type := .Linear, z := 1, z2 := 0, c2 := 0, table_size := 3,
    table := .probedS [some "a", none, none], total_elements := 1,
    params := none }

def linTable7 : HashTable String :=
  { collision_type := .Linear, z := 1, z2 := 0, c2 := 0, table_size := 7,
    table := .probedS [some "a", none, none, none, none, none, none],
    total_elements := 1, params := none }

/-- Witness for the amended C1 at a concrete input, covering both the
direct round trip and the round trip across a completed rehash. -/
theorem insert_find_roundtrip_witness :
    (linTable3.wf = true ∧ linTable3.allSlotTruthy setEntry = true ∧
      linTable3.keysNodup setEntry ∧
      linTable3.absent setEntry "a" = true ∧
      setEntry.slotTruthy "a" = true ∧
      linTable3.insert setEntry "a" = some linTable3i ∧
      linTable3i.total_elements = linTable3.total_elements + 1 ∧
      linTable3i.rehash setEntry 7 = some linTable7 ∧
      linTable7.total_elements = linTable3i.total_elements) ∧
    (linTable3i.find setEntry "a" = .found "a" ∧
      linTable7.find setEntry "a" = .found "a") :=
  ⟨⟨by decide, by decide, by unfold HashTable.keysNodup; decide, by decide,
    by decide, by decide, by decide, by decide, by decide⟩,
   ⟨(insert_find_roundtrip setEntry linTable3 linTable3i "a" (by decide)
       (by decide) (by unfold HashTable.keysNodup; decide) (by decide)
       (by decide) (by decide) (by decide)).1,
    (insert_find_roundtrip setEntry linTable3 linTable3i "a" (by decide)
       (by decide) (by unfold HashTable.keysNodup; decide) (by decide)
       (by decide) (by decide) (by decide)).2 7 linTable7 (by decide)
       (by decide)⟩⟩

/-- The supplier `get_next_size()` of `prime_generator.py`:
`prime_sizes.pop()` removes and returns the last element of the seeded
list; popping an empty list raises `IndexError`, modelled as `none`. -/
def popSize : List Nat → Option (Nat × List Nat)
  | [] => none
  | s :: ss => some ((s :: ss).getLast (by simp), (s :: ss).dropLast)

mutual

/-- `DynamicHashSet.insert`: perform the inherited insert, then
`if self.get_load() >= 0.5: self.rehash()`.  The load comparison
`total_elements / table_size >= 0.5` is embedded as the exact integer
test `table_size ≤ 2 * total_elements` (see `load_lt_half` for the
bridge to `get_load`); `table_size = 0` makes `get_load` raise
`ZeroDivisionError`.  Python's recursion (insert → rehash → insert …)
consumes one supplier entry per rehash; the fuel argument dominates that
depth and the wrapper `DynamicHashSet.insert` supplies more than enough. -/
def dynInsertSet (fuel : Nat) (sizes : List Nat) (t : HashTable String)
    (x : String) : Option (HashTable String × List Nat) :=
  match fuel with
  | 0 => none
  | fuel' + 1 =>
    match t.insert setEntry x with
    | none => none
    | some t' =>
      if t'.table_size = 0 then none
      else if t'.table_size ≤ 2 * t'.total_elements then
        dynRehashSet fuel' sizes t'
      else some (t', sizes)
termination_by (fuel, 0, 0)

/-- `DynamicHashSet.rehash`: pop the next size, drain the current
entries in slot order, re-run `__init__` with the two-element parameter
tuple `(self.z, new_size)` — which raises `IndexError` for the Double
strategy, whose `__init__` reads four parameters — and reinsert every
drained element through the dynamic `insert`. -/
def dynRehashSet (fuel : Nat) (sizes : List Nat) (t : HashTable String) :
    Option (HashTable String × List Nat) :=
  match fuel with
  | 0 => none
  | fuel' + 1 =>
    match popSize sizes with
    | none => none
    | some (new_size, sizes') =>
      match HashTable.init String t.collision_type
          [t.z, (new_size : Int)] with
      | none => none
      | some t0 => dynInsertAllSet fuel' sizes' t0 t.toList
termination_by (fuel, 0, 0)

/-- The reinsertion loop of `DynamicHashSet.rehash`
(`for element in current_elements: self.insert(element)`). -/
def dynInsertAllSet (fuel : Nat) (sizes : List Nat) (t : HashTable String)
    (es : List String) : Option (HashTable String × List Nat) :=
  match es with
  | [] => some (t, sizes)
  | y :: ys =>
    match dynInsertSet fuel sizes t y with
    | none => none
    | some (t', sizes') => dynInsertAllSet fuel sizes' t' ys
termination_by (fuel, 1, es.length)

end

mutual

/-- `DynamicHashMap.insert`, identical in control flow to the set
variant. -/
def dynInsertMap (V : Type) (tv : V → Bool) (fuel : Nat)
    (sizes : List Nat) (t : HashTable (String × V)) (x : String × V) :
    Option (HashTable (String × V) × List Nat) :=
  match fuel with
  | 0 => none
  | fuel' + 1 =>
    match t.insert (mapEntry V tv) x with
    | none => none
    | some t' =>
      if t'.table_size = 0 then none
      else if t'.table_size ≤ 2 * t'.total_elements then
        dynRehashMap V tv fuel' sizes t'
      else some (t', sizes)
termination_by (fuel, 0, 0)

/-- `DynamicHashMap.rehash`: pop the next size, drain the entries, then
evaluate `self.params[:2] + (new_size,)`.  No `__init__` in the
repository ever assigns `self.params`, so the attribute read raises
`AttributeError` (the `params` field is `none`); the `some` branch
models what would happen had some external code set the attribute. -/
def dynRehashMap (V : Type) (tv : V → Bool) (fuel : Nat)
    (sizes : List Nat) (t : HashTable (String × V)) :
    Option (HashTable (String × V) × List Nat) :=
  match fuel with
  | 0 => none
  | fuel' + 1 =>
    match popSize sizes with
    | none => none
    | some (new_size, sizes') =>
      match t.params with
      | none => none
      | some ps =>
        match HashTable.init (String × V) t.collision_type
            (ps.take 2 ++ [(new_size : Int)]) with
        | none => none
        | some t0 => dynInsertAllMap V tv fuel' sizes' t0 t.toList
termination_by (fuel, 0, 0)

/-- The reinsertion loop of `DynamicHashMap.rehash`. -/
def dynInsertAllMap (V : Type) (tv : V → Bool) (fuel : Nat)
    (sizes : List Nat) (t : HashTable (String × V))
    (es : List (String × V)) :
    Option (HashTable (String × V) × List Nat) :=
  match es with
  | [] => some (t, sizes)
  | y :: ys =>
    match dynInsertMap V tv fuel sizes t y with
    | none => none
    | some (t', sizes') => dynInsertAllMap V tv fuel sizes' t' ys
termination_by (fuel, 1, es.length)

end

/-- Public entry point for the dynamic set insert, with fuel that the
recursion can never exhaust before a genuine error: every nesting level
beyond the first two consumes at least one supplier entry. -/
def DynamicHashSet.insert (sizes : List Nat) (t : HashTable String)
    (x : String) : Option (HashTable String × List Nat) :=
  dynInsertSet (2 * sizes.length + 2) sizes t x

/-- Public entry point for the dynamic map insert. -/
def DynamicHashMap.insert (V : Type) (tv : V → Bool) (sizes : List Nat)
    (t : HashTable (String × V)) (x : String × V) :
    Option (HashTable (String × V) × List Nat) :=
  dynInsertMap V tv (2 * sizes.length + 2) sizes t x

/-- Claim C4 fails on the code: a dynamic rebuild crashes for every
Double-strategy set (the re-init passes only `(self.z, new_size)` where
`__init__` reads four parameters: `IndexError`) and for every map whose
`params` attribute is unset — which is every map the repository can
construct, since no `__init__` assigns `self.params` (`AttributeError`).
Only Chain/Linear dynamic sets rebuild as the claim describes. -/
theorem dyn_rehash_crashes :
    (∀ (fuel : Nat) (sizes : List Nat) (t : HashTable String),
        t.collision_type = .Double → dynRehashSet fuel sizes t = none) ∧
    (∀ (V : Type) (tv : V → Bool) (fuel : Nat) (sizes : List Nat)
        (t : HashTable (String × V)), t.params = none →
        dynRehashMap V tv fuel sizes t = none) := by
  constructor
  · intro fuel sizes t hct
    unfold dynRehashSet
    cases fuel with
    | zero => rfl
    | succ fuel' =>
        cases hpop : popSize sizes with
        | none => simp [hpop]
        | some pr =>
            obtain ⟨ns, sizes'⟩ := pr
            simp only [hpop, hct]
            rfl
  · intro V tv fuel sizes t hp
    unfold dynRehashMap
    cases fuel with
    | zero => rfl
    | succ fuel' =>
        cases hpop : popSize sizes with
        | none => simp [hpop]
        | some pr =>
            obtain ⟨ns, sizes'⟩ := pr
            simp only [hpop, hp]

/-- A Double-strategy dynamic set and a Chain dynamic map at the moment
their load reaches one half, used to witness C4. -/
def doubleSetTable : HashTable String :=
  { collision_type := .Double, z := 31, z2 := 37, c2 := 17, table_size := 2,
    table := .probedS [some "a", none], total_elements := 1, params := none }

def chainMapTable : HashTable (String × String) :=
  { collision_type := .Chain, z := 31, z2 := 0, c2 := 0, table_size := 2,
    table := .chainS [[("a", "x")], []], total_elements := 1,
    params := none }

/-- Witness for C4's theorem at concrete inputs. -/
theorem dyn_rehash_crashes_witness :
    (doubleSetTable.collision_type = .Double ∧
      dynRehashSet 5 [7] doubleSetTable = none) ∧
    (chainMapTable.params = none ∧
      dynRehashMap String (fun v => !(v == "")) 5 [7] chainMapTable
        = none) :=
  ⟨⟨by decide, dyn_rehash_crashes.1 5 [7] doubleSetTable (by decide)⟩,
   ⟨by decide, dyn_rehash_crashes.2 String (fun v => !(v == "")) 5 [7]
      chainMapTable (by decide)⟩⟩

theorem init_state {α : Type} (ct : Strategy) (ps : List Int)
    (t0 : HashTable α) (h : HashTable.init α ct ps = some t0) :
    t0.total_elements = 0 ∧ (1 ≤ t0.table_size → t0.wf = true) := by
  unfold HashTable.init at h
  split at h
  · rw [Option.some.injEq] at h
    subst h
    exact ⟨rfl, fun hs => wf_build_probed _ _
      (fun hh => Strategy.noConfusion hh) rfl hs (by simp)
      (by simp [filterMap_replicate_none])⟩
  · exact Option.noConfusion h
  · rw [Option.some.injEq] at h
    subst h
    exact ⟨rfl, fun hs => wf_build_chain _ _ rfl rfl hs (by simp)
      (by simp [flatten_replicate_nil])⟩
  · exact Option.noConfusion h
  · rw [Option.some.injEq] at h
    subst h
    exact ⟨rfl, fun hs => wf_build_probed _ _
      (fun hh => Strategy.noConfusion hh) rfl hs (by simp)
      (by simp [filterMap_replicate_none])⟩
  · exact Option.noConfusion h

theorem load_lt_half {α : Type} (t : HashTable α) (hs : 1 ≤ t.table_size)
    (h : 2 * t.total_elements < t.table_size) : t.get_load < 1 / 2 := by
  unfold HashTable.get_load
  rw [div_lt_div_iff (by exact_mod_cast hs) (by norm_num)]
  have h2 : (2 * t.total_elements : ℚ) < (t.table_size : ℚ) := by
    exact_mod_cast h
  linarith

theorem dynInsertAllSet_size_zero (fuel : Nat) (sizes : List Nat)
    (t : HashTable String) (es : List String) (hs : t.table_size = 0)
    (hne : es ≠ []) : dynInsertAllSet fuel sizes t es = none := by
  rcases es with _ | ⟨y, ys⟩
  · exact absurd rfl hne
  · have hnone : dynInsertSet fuel sizes t y = none := by
      unfold dynInsertSet
      cases fuel with
      | zero => rfl
      | succ f => rw [insert_size_zero setEntry t y hs]
    unfold dynInsertAllSet
    rw [hnone]

theorem dynInsertAllMap_size_zero (V : Type) (tv : V → Bool) (fuel : Nat)
    (sizes : List Nat) (t : HashTable (String × V))
    (es : List (String × V)) (hs : t.table_size = 0) (hne : es ≠ []) :
    dynInsertAllMap V tv fuel sizes t es = none := by
  rcases es with _ | ⟨y, ys⟩
  · exact absurd rfl hne
  · have hnone : dynInsertMap V tv fuel sizes t y = none := by
      unfold dynInsertMap
      cases fuel with
      | zero => rfl
      | succ f => rw [insert_size_zero (mapEntry V tv) t y hs]
    unfold dynInsertAllMap
    rw [hnone]

theorem dynSet_load_aux :
    ∀ fuel : Nat,
      (∀ (sizes : List Nat) (t : HashTable String) (x : String)
          (t' : HashTable String) (sizes' : List Nat),
          t.wf = true → dynInsertSet fuel sizes t x = some (t', sizes') →
          t'.wf = true ∧ 2 * t'.total_elements < t'.table_size) ∧
      (∀ (sizes : List Nat) (t t' : HashTable String) (sizes' : List Nat),
          t.wf = true → t.toList ≠ [] →
          dynRehashSet fuel sizes t = some (t', sizes') →
          t'.wf = true ∧ 2 * t'.total_elements < t'.table_size) ∧
      (∀ (es : List String) (sizes : List Nat) (t t' : HashTable String)
          (sizes' : List Nat),
          t.wf = true → 2 * t.total_elements < t.table_size →
          dynInsertAllSet fuel sizes t es = some (t', sizes') →
          t'.wf = true ∧ 2 * t'.total_elements < t'.table_size) := by
  intro fuel
  induction fuel with
  | zero =>
      refine ⟨?_, ?_, ?_⟩
      · intro _ _ _ _ _ _ h
        simp [dynInsertSet] at h
      · intro _ _ _ _ _ _ h
        simp [dynRehashSet] at h
      · intro es sizes t t' sizes' hwf hb h
        rcases es with _ | ⟨y, ys⟩
        · simp only [dynInsertAllSet, Option.some.injEq,
            Prod.mk.injEq] at h
          obtain ⟨ht, _⟩ := h
          subst ht
          exact ⟨hwf, hb⟩
        · simp [dynInsertAllSet, dynInsertSet] at h
  | succ fuel ih =>
      obtain ⟨ihIns, ihReh, ihAll⟩ := ih
      have hIns : ∀ (sizes : List Nat) (t : HashTable String) (x : String)
          (t' : HashTable String) (sizes' : List Nat),
          t.wf = true →
          dynInsertSet (fuel + 1) sizes t x = some (t', sizes') →
          t'.wf = true ∧ 2 * t'.total_elements < t'.table_size := by
        intro sizes t x t' sizes' hwf h
        unfold dynInsertSet at h
        rcases hsi : t.insert setEntry x with _ | t₁
        · simp only [hsi] at h
          exact Option.noConfusion h
        · simp only [hsi] at h
          have hwf₁ := (insert_state setEntry t t₁ x hwf hsi).1
          by_cases hts0 : t₁.table_size = 0
          · rw [if_pos hts0] at h
            exact Option.noConfusion h
          · rw [if_neg hts0] at h
            by_cases hload : t₁.table_size ≤ 2 * t₁.total_elements
            · rw [if_pos hload] at h
              have hne : t₁.toList ≠ [] := by
                have hc := wf_count_toList t₁ hwf₁
                intro hnil
                rw [hnil] at hc
                simp at hc
                omega
              exact ihReh sizes t₁ t' sizes' hwf₁ hne h
            · rw [if_neg hload] at h
              rw [Option.some.injEq, Prod.mk.injEq] at h
              obtain ⟨ht, _⟩ := h
              subst ht
              exact ⟨hwf₁, by omega⟩
      have hAll : ∀ (es : List String) (sizes : List Nat)
          (t t' : HashTable String) (sizes' : List Nat),
          t.wf = true → 2 * t.total_elements < t.table_size →
          dynInsertAllSet (fuel + 1) sizes t es = some (t', sizes') →
          t'.wf = true ∧ 2 * t'.total_elements < t'.table_size := by
        intro es
        induction es with
        | nil =>
            intro sizes t t' sizes' hwf hb h
            simp only [dynInsertAllSet, Option.some.injEq,
              Prod.mk.injEq] at h
            obtain ⟨ht, _⟩ := h
            subst ht
            exact ⟨hwf, hb⟩
        | cons y ys ihys =>
            intro sizes t t' sizes' hwf hb h
            unfold dynInsertAllSet at h
            rcases hdi : dynInsertSet (fuel + 1) sizes t y with _ | pr
            · simp only [hdi] at h
              exact Option.noConfusion h
            · obtain ⟨t₁, sizes₁⟩ := pr
              simp only [hdi] at h
              obtain ⟨hwf₁, hb₁⟩ := hIns sizes t y t₁ sizes₁ hwf hdi
              exact ihys sizes₁ t₁ t' sizes' hwf₁ hb₁ h
      have hReh : ∀ (sizes : List Nat) (t t' : HashTable String)
          (sizes' : List Nat),
          t.wf = true → t.toList ≠ [] →
          dynRehashSet (fuel + 1) sizes t = some (t', sizes') →
          t'.wf = true ∧ 2 * t'.total_elements < t'.table_size := by
        intro sizes t t' sizes' hwf hne h
        unfold dynRehashSet at h
        rcases hpop : popSize sizes with _ | pr
        · simp only [hpop] at h
          exact Option.noConfusion h
        · obtain ⟨ns, sizes₁⟩ := pr
          simp only [hpop] at h
          rcases hinit : HashTable.init String t.collision_type
              [t.z, (ns : Int)] with _ | t0
          · simp only [hinit] at h
            exact Option.noConfusion h
          · simp only [hinit] at h
            by_cases hts0 : t0.table_size = 0
            · rw [dynInsertAllSet_size_zero fuel sizes₁ t0 t.toList hts0
                hne] at h
              exact Option.noConfusion h
            · obtain ⟨hc0, hwf0⟩ := init_state t.collision_type _ t0 hinit
              exact ihAll t.toList sizes₁ t0 t' sizes'
                (hwf0 (by omega)) (by omega) h
      exact ⟨hIns, hReh, hAll⟩

theorem dynMap_load_aux (V : Type) (tv : V → Bool) :
    ∀ fuel : Nat,
      (∀ (sizes : List Nat) (t : HashTable (String × V)) (x : String × V)
          (t' : HashTable (String × V)) (sizes' : List Nat),
          t.wf = true →
          dynInsertMap V tv fuel sizes t x = some (t', sizes') →
          t'.wf = true ∧ 2 * t'.total_elements < t'.table_size) ∧
      (∀ (sizes : List Nat) (t t' : HashTable (String × V))
          (sizes' : List Nat),
          t.wf = true → t.toList ≠ [] →
          dynRehashMap V tv fuel sizes t = some (t', sizes') →
          t'.wf = true ∧ 2 * t'.total_elements < t'.table_size) ∧
      (∀ (es : List (String × V)) (sizes : List Nat)
          (t t' : HashTable (String × V)) (sizes' : List Nat),
          t.wf = true → 2 * t.total_elements < t.table_size →
          dynInsertAllMap V tv fuel sizes t es = some (t', sizes') →
          t'.wf = true ∧ 2 * t'.total_elements < t'.table_size) := by
  intro fuel
  induction fuel with
  | zero =>
      refine ⟨?_, ?_, ?_⟩
      · intro _ _ _ _ _ _ h
        simp [dynInsertMap] at h
      · intro _ _ _ _ _ _ h
        simp [dynRehashMap] at h
      · intro es sizes t t' sizes' hwf hb h
        rcases es with _ | ⟨y, ys⟩
        · simp only [dynInsertAllMap, Option.some.injEq,
            Prod.mk.injEq] at h
          obtain ⟨ht, _⟩ := h
          subst ht
          exact ⟨hwf, hb⟩
        · simp [dynInsertAllMap, dynInsertMap] at h
  | succ fuel ih =>
      obtain ⟨ihIns, ihReh, ihAll⟩ := ih
      have hIns : ∀ (sizes : List Nat) (t : HashTable (String × V))
          (x : String × V) (t' : HashTable (String × V))
          (sizes' : List Nat),
          t.wf = true →
          dynInsertMap V tv (fuel + 1) sizes t x = some (t', sizes') →
          t'.wf = true ∧ 2 * t'.total_elements < t'.table_size := by
        intro sizes t x t' sizes' hwf h
        unfold dynInsertMap at h
        rcases hsi : t.insert (mapEntry V tv) x with _ | t₁
        · simp only [hsi] at h
          exact Option.noConfusion h
        · simp only [hsi] at h
          have hwf₁ := (insert_state (mapEntry V tv) t t₁ x hwf hsi).1
          by_cases hts0 : t₁.table_size = 0
          · rw [if_pos hts0] at h
            exact Option.noConfusion h
          · rw [if_neg hts0] at h
            by_cases hload : t₁.table_size ≤ 2 * t₁.total_elements
            · rw [if_pos hload] at h
              have hne : t₁.toList ≠ [] := by
                have hc := wf_count_toList t₁ hwf₁
                intro hnil
                rw [hnil] at hc
                simp at hc
                omega
              exact ihReh sizes t₁ t' sizes' hwf₁ hne h
            · rw [if_neg hload] at h
              rw [Option.some.injEq, Prod.mk.injEq] at h
              obtain ⟨ht, _⟩ := h
              subst ht
              exact ⟨hwf₁, by omega⟩
      have hAll : ∀ (es : List (String × V)) (sizes : List Nat)
          (t t' : HashTable (String × V)) (sizes' : List Nat),
          t.wf = true → 2 * t.total_elements < t.table_size →
          dynInsertAllMap V tv (fuel + 1) sizes t es = some (t', sizes') →
          t'.wf = true ∧ 2 * t'.total_elements < t'.table_size := by
        intro es
        induction es with
        | nil =>
            intro sizes t t' sizes' hwf hb h
            simp only [dynInsertAllMap, Option.some.injEq,
              Prod.mk.injEq] at h
            obtain ⟨ht, _⟩ := h
            subst ht
            exact ⟨hwf, hb⟩
        | cons y ys ihys =>
            intro sizes t t' sizes' hwf hb h
            unfold dynInsertAllMap at h
            rcases hdi : dynInsertMap V tv (fuel + 1) sizes t y with _ | pr
            · simp only [hdi] at h
              exact Option.noConfusion h
            · obtain ⟨t₁, sizes₁⟩ := pr
              simp only [hdi] at h
              obtain ⟨hwf₁, hb₁⟩ := hIns sizes t y t₁ sizes₁ hwf hdi
              exact ihys sizes₁ t₁ t' sizes' hwf₁ hb₁ h
      have hReh : ∀ (sizes : List Nat) (t t' : HashTable (String × V))
          (sizes' : List Nat),
          t.wf = true → t.toList ≠ [] →
          dynRehashMap V tv (fuel + 1) sizes t = some (t', sizes') →
          t'.wf = true ∧ 2 * t'.total_elements < t'.table_size := by
        intro sizes t t' sizes' hwf hne h
        unfold dynRehashMap at h
        rcases hpop : popSize sizes with _ | pr
        · simp only [hpop] at h
          exact Option.noConfusion h
        · obtain ⟨ns, sizes₁⟩ := pr
          simp only [hpop] at h
          rcases hps : t.params with _ | ps
          · simp only [hps] at h
            exact Option.noConfusion h
          · simp only [hps] at h
            rcases hinit : HashTable.init (String × V) t.collision_type
                (ps.take 2 ++ [(ns : Int)]) with _ | t0
            · simp only [hinit] at h
              exact Option.noConfusion h
            · simp only [hinit] at h
              by_cases hts0 : t0.table_size = 0
              · rw [dynInsertAllMap_size_zero V tv fuel sizes₁ t0 t.toList
                  hts0 hne] at h
                exact Option.noConfusion h
              · obtain ⟨hc0, hwf0⟩ := init_state t.collision_type _ t0
                  hinit
                exact ihAll t.toList sizes₁ t0 t' sizes'
                  (hwf0 (by omega)) (by omega) h
      exact ⟨hIns, hReh, hAll⟩

/-- Claim C3: for every dynamic table of any strategy, Set or Map, in a
well-formed state, every `insert` call that returns (rather than raising
or exhausting the prime-size supplier, both modelled as `none`) leaves
`count / size` strictly below one half.  The quantification over `fuel`
covers the public entry points `DynamicHashSet.insert` and
`DynamicHashMap.insert`, which fix the fuel. -/
theorem dyn_insert_load_bound :
    (∀ (fuel : Nat) (sizes : List Nat) (t : HashTable String) (x : String)
        (t' : HashTable String) (sizes' : List Nat), t.wf = true →
        dynInsertSet fuel sizes t x = some (t', sizes') →
        t'.get_load < 1 / 2) ∧
    (∀ (V : Type) (tv : V → Bool) (fuel : Nat) (sizes : List Nat)
        (t : HashTable (String × V)) (x : String × V)
        (t' : HashTable (String × V)) (sizes' : List Nat), t.wf = true →
        dynInsertMap V tv fuel sizes t x = some (t', sizes') →
        t'.get_load < 1 / 2) := by
  constructor
  · intro fuel sizes t x t' sizes' hwf h
    obtain ⟨hwf', hb⟩ := (dynSet_load_aux fuel).1 sizes t x t' sizes' hwf h
    exact load_lt_half t' (wf_size_pos t' hwf') hb
  · intro V tv fuel sizes t x t' sizes' hwf h
    obtain ⟨hwf', hb⟩ :=
      (dynMap_load_aux V tv fuel).1 sizes t x t' sizes' hwf h
    exact load_lt_half t' (wf_size_pos t' hwf') hb

/-- Empty Chain map of size 5 and its state after inserting
`("a", "x")`, used to witness C3 on the map side. -/
def mapTable5 : HashTable (String × String) :=
  { collision_type := .Chain, z := 1, z2 := 0, c2 := 0, table_size := 5,
    table := .chainS [[], [], [], [], []], total_elements := 0,
    params := none }

def mapTable5i : HashTable (String × String) :=
  { collision_type := .Chain, z := 1, z2 := 0, c2 := 0, table_size := 5,
    table := .chainS [[("a", "x")], [], [], [], []], total_elements := 1,
    params := none }

theorem dynInsertSet_eval :
    dynInsertSet 1 [7] linTable3 "a" = some (linTable3i, [7]) := by
  unfold dynInsertSet
  simp [show linTable3.insert setEntry "a" = some linTable3i from
    by decide, linTable3i]

theorem dynInsertMap_eval :
    dynInsertMap String (fun v => !(v == "")) 1 [7] mapTable5 ("a", "x")
      = some (mapTable5i, [7]) := by
  unfold dynInsertMap
  simp [show mapTable5.insert (mapEntry String (fun v => !(v == "")))
      ("a", "x") = some mapTable5i from by decide, mapTable5i,
    mapEntryStr]

/-- Witness for C3 at concrete inputs, one per table flavour. -/
theorem dyn_insert_load_bound_witness :
    (linTable3.wf = true ∧
      dynInsertSet 1 [7] linTable3 "a" = some (linTable3i, [7]) ∧
      mapTable5.wf = true ∧
      dynInsertMap String (fun v => !(v == "")) 1 [7] mapTable5 ("a", "x")
        = some (mapTable5i, [7])) ∧
    (linTable3i.get_load < 1 / 2 ∧ mapTable5i.get_load < 1 / 2) :=
  ⟨⟨by decide, dynInsertSet_eval, by decide, dynInsertMap_eval⟩,
   ⟨dyn_insert_load_bound.1 1 [7] linTable3 "a" linTable3i [7] (by decide)
      dynInsertSet_eval,
    dyn_insert_load_bound.2 String (fun v => !(v == "")) 1 [7] mapTable5
      ("a", "x") mapTable5i [7] (by decide) dynInsertMap_eval⟩⟩
